import Mathlib

/-!
Verification of the daymark core against its specification.

This file shallowly embeds the two core subsystems of the daymark note
editor — the live-preview annotation builder (`src/live-preview.ts`) and
the note index (`src/main.ts`, `NoteIndex`) — as executable Lean
definitions, and proves or refutes the specification claims about them.

Conventions of the embedding:
* Document text is a `List Char`; positions are `Nat` offsets.
* The JavaScript regexes of the source are hand-compiled to scanners with
  the same semantics (leftmost match, lazy quantifiers, lookarounds,
  `matchAll` continuing from the end of the previous match).
* CodeMirror decorations are modelled by the `Deco` type, following the
  spec's annotation taxonomy: the `hidden` replace-decoration of the
  source is `hide`, the `cm-live-preview-syntax-fade` mark is `fade`,
  widget-replacements (task/bullet icons) are `taskReplace`/`bulletReplace`,
  style marks are `…Mark` kinds, `Decoration.line` values are `line…`
  kinds, and the external-link arrow (a point widget) is `arrowWidget`.
* The builder is modelled on its regex path (`useTreeForBlocks = false`,
  i.e. the syntax tree does not cover the document); the tree-driven
  variant delegates all NotePlan-specific markers back to the regex pass.
  The interpretation of a tree-provided GFM task marker (lines 246–247 of
  the source) is embedded separately as `treeTaskState`.
-/

namespace Daymark

/-! ## Character classes and small helpers -/

/-- JavaScript `\s` restricted to the characters that can occur here. -/
def jsSpace (c : Char) : Bool :=
  c == ' ' || c == '\t' || c == '\n' || c == '\r' || c == '\x0b' || c == '\x0c'

def isAsciiLetter (c : Char) : Bool :=
  (decide ('A' ≤ c) && decide (c ≤ 'Z')) || (decide ('a' ≤ c) && decide (c ≤ 'z'))

def isAsciiDigit (c : Char) : Bool :=
  decide ('0' ≤ c) && decide (c ≤ '9')

/-- The character class `[A-Za-z0-9_/\-&]` used by mention/hashtag tokens. -/
def jsWordChar (c : Char) : Bool :=
  isAsciiLetter c || isAsciiDigit c || c == '_' || c == '/' || c == '-' || c == '&'

/-- `t[i]? = some c` as a Bool; out-of-range is `false`. -/
def chIs (t : List Char) (i : Nat) (c : Char) : Bool :=
  t[i]? == some c

def jsSpaceAt (t : List Char) (i : Nat) : Bool :=
  match t[i]? with
  | some c => jsSpace c
  | none => false

/-- Inclusive containment test `cursorIn` of the source. -/
def cursorIn (cursor a b : Nat) : Bool :=
  decide (a ≤ cursor) && decide (cursor ≤ b)

def slice (t : List Char) (a b : Nat) : List Char :=
  (t.drop a).take (b - a)

/-- Smallest `j` with `start ≤ j < start + fuel` and `p j`. -/
def findFrom (p : Nat → Bool) : Nat → Nat → Option Nat
  | _, 0 => none
  | i, fuel + 1 => if p i then some i else findFrom p (i + 1) fuel

/-- Concatenation of `f` over a list (a named `flatMap` with its own
membership lemma, to keep proofs self-contained). -/
def flatM (f : α → List β) : List α → List β
  | [] => []
  | x :: xs => f x ++ flatM f xs

/-! ## Annotations -/

inductive TaskState where
  | open_
  | done
  | cancelled
  | scheduled
deriving DecidableEq, Repr

inductive DKind where
  | hide
  | fade
  | boldMark
  | italicMark
  | strikeMark
  | codeMark
  | wikilinkMark (target : List Char)
  | extlinkMark (url : List Char)
  | mentionMark (name : List Char)
  | hashtagMark (name : List Char)
  | cancelledTextMark
  | taskReplace (st : TaskState)
  | bulletReplace
  | arrowWidget (url : List Char)
  | lineHeading (lvl : Nat)
  | lineBlockquote
  | lineDone
  | lineCancelled
  | lineScheduled
  | lineList
  | lineIndent (n : Nat)
deriving DecidableEq, Repr

/-- One decoration: a kind plus its range (`range(from)` of a line or
point widget gives `dfrom = dto`). -/
structure Deco where
  kind : DKind
  dfrom : Nat
  dto : Nat
deriving DecidableEq, Repr

/-! ## Inline scanners (compiled from the builder's regexes) -/

/-- Driver for `matchAll`: scan start positions left to right, on a match
`(e, payload)` record it and continue at `e`. `fuel` bounds iterations. -/
def scanAll (f : Nat → Option (Nat × α)) : Nat → Nat → List (Nat × Nat × α)
  | _, 0 => []
  | i, fuel + 1 =>
    match f i with
    | some (e, a) => (i, e, a) :: scanAll f (max e (i + 1)) fuel
    | none => scanAll f (i + 1) fuel

def pairAt (t : List Char) (c : Char) (j : Nat) : Bool :=
  chIs t j c && chIs t (j + 1) c

/-- `(\*\*|__)(.+?)\1` at position `i`; returns the match end. -/
def boldAt (t : List Char) (i : Nat) : Option (Nat × Unit) :=
  if pairAt t '*' i then
    match findFrom (pairAt t '*') (i + 3) t.length with
    | some j => some (j + 2, ())
    | none => none
  else if pairAt t '_' i then
    match findFrom (pairAt t '_') (i + 3) t.length with
    | some j => some (j + 2, ())
    | none => none
  else none

/-- One alternative `(?<!c)c(?!c)(.+?)(?<!c)c(?!c)` of the italic regex. -/
def italAltAt (t : List Char) (c : Char) (i : Nat) : Option (Nat × Unit) :=
  if (i == 0 || !chIs t (i - 1) c) && chIs t i c && !chIs t (i + 1) c then
    match findFrom (fun j => chIs t j c && !chIs t (j - 1) c && !chIs t (j + 1) c)
        (i + 2) t.length with
    | some j => some (j + 1, ())
    | none => none
  else none

/-- Italic `(?<!\*)\*(?!\*)(.+?)(?<!\*)\*(?!\*)|(?<!_)_(?!_)(.+?)(?<!_)_(?!_)`. -/
def italicAt (t : List Char) (i : Nat) : Option (Nat × Unit) :=
  match italAltAt t '*' i with
  | some r => some r
  | none => italAltAt t '_' i

/-- `~~(.+?)~~`. -/
def strikeAt (t : List Char) (i : Nat) : Option (Nat × Unit) :=
  if pairAt t '~' i then
    match findFrom (pairAt t '~') (i + 3) t.length with
    | some j => some (j + 2, ())
    | none => none
  else none

/-- Inline code `` (?<!`)(`)((?!`).+?)(`) ``. -/
def codeAt (t : List Char) (i : Nat) : Option (Nat × Unit) :=
  if (i == 0 || !chIs t (i - 1) '`') && chIs t i '`'
      && decide (i + 1 < t.length) && !chIs t (i + 1) '`' then
    match findFrom (fun j => chIs t j '`') (i + 2) t.length with
    | some j => some (j + 1, ())
    | none => none
  else none

/-- `\[\[(.+?)\]\]` (payload: the captured target). -/
def wikiAt (t : List Char) (i : Nat) : Option (Nat × List Char) :=
  if chIs t i '[' && chIs t (i + 1) '[' then
    match findFrom (fun j => chIs t j ']' && chIs t (j + 1) ']') (i + 3) t.length with
    | some j => some (j + 2, slice t (i + 2) j)
    | none => none
  else none

/-- `https?:\/\/` at `p`; returns the position after the `//`. -/
def httpPre (t : List Char) (p : Nat) : Option Nat :=
  if chIs t p 'h' && chIs t (p + 1) 't' && chIs t (p + 2) 't' && chIs t (p + 3) 'p' then
    let q := if chIs t (p + 4) 's' then p + 5 else p + 4
    if chIs t q ':' && chIs t (q + 1) '/' && chIs t (q + 2) '/' then some (q + 3)
    else none
  else none

/-- End of the maximal `\S*` run starting at `j`. -/
def nonSpaceEnd (t : List Char) : Nat → Nat → Nat
  | j, 0 => j
  | j, fuel + 1 =>
    if decide (j < t.length) && !jsSpaceAt t j then nonSpaceEnd t (j + 1) fuel else j

inductive ExtM where
  | md (textLen : Nat) (url : List Char)
  | bare (url : List Char)
deriving DecidableEq, Repr

/-- `\[([^\]]+)\]\((https?:\/\/[^)]+)\)|(https?:\/\/\S+)`. -/
def extAt (t : List Char) (i : Nat) : Option (Nat × ExtM) :=
  if chIs t i '[' then
    match findFrom (fun j => chIs t j ']') (i + 1) t.length with
    | none => none
    | some j =>
      if decide (i + 1 < j) && chIs t (j + 1) '(' then
        match httpPre t (j + 2) with
        | none => none
        | some p =>
          match findFrom (fun k => chIs t k ')') (j + 2) t.length with
          | some k =>
            if decide (p < k) then some (k + 1, .md (j - (i + 1)) (slice t (j + 2) k))
            else none
          | none => none
      else none
  else
    match httpPre t i with
    | none => none
    | some p =>
      let e := nonSpaceEnd t p (t.length + 1)
      if decide (p < e) then some (e, .bare (slice t i e)) else none

/-- End of the maximal `[A-Za-z0-9_/\-&]*` run starting at `j`. -/
def wordRunEnd (t : List Char) : Nat → Nat → Nat
  | j, 0 => j
  | j, fuel + 1 =>
    match t[j]? with
    | some c => if jsWordChar c then wordRunEnd t (j + 1) fuel else j
    | none => j

/-- `(?:^|(?<=\s))(@[A-Za-z_][A-Za-z0-9_/\-&]*)` (payload: the token). -/
def mentionAt (t : List Char) (i : Nat) : Option (Nat × List Char) :=
  if (i == 0 || jsSpaceAt t (i - 1)) && chIs t i '@'
      && (match t[i + 1]? with
          | some c => isAsciiLetter c || c == '_'
          | none => false) then
    let e := wordRunEnd t (i + 2) (t.length + 1)
    some (e, slice t i e)
  else none

/-- `(?:^|(?<=\s))(#[A-Za-z][A-Za-z0-9_/\-&]*)`. -/
def hashtagAt (t : List Char) (i : Nat) : Option (Nat × List Char) :=
  if (i == 0 || jsSpaceAt t (i - 1)) && chIs t i '#'
      && (match t[i + 1]? with
          | some c => isAsciiLetter c
          | none => false) then
    let e := wordRunEnd t (i + 2) (t.length + 1)
    some (e, slice t i e)
  else none

/-! ## Anchored line matchers -/

/-- `^(#{1,6})\s`: returns the number of `#` characters. -/
def headingMatch (t : List Char) : Option Nat :=
  let n := (t.takeWhile (· == '#')).length
  if 1 ≤ n ∧ n ≤ 6 ∧ jsSpaceAt t n = true then some n else none

/-- `^(> ?)`: returns the marker length. -/
def quoteMatch (t : List Char) : Option Nat :=
  if chIs t 0 '>' then some (if chIs t 1 ' ' then 2 else 1) else none

/-- Length of the leading `\t+` run. -/
def tabRun (t : List Char) : Nat :=
  (t.takeWhile (· == '\t')).length

/-- The character class `[x\-> ]` of the task marker. -/
def isTaskMarkerChar (c : Char) : Bool :=
  c == 'x' || c == '-' || c == '>' || c == ' '

/-- Result of `^(\s*)([-+] \[([x\-> ])\] |(\*) |([-+]) )`. -/
structure TaskM where
  indent : List Char
  prefixLen : Nat
  marker : Option Char
  g4 : Bool
  g5 : Option Char
deriving DecidableEq, Repr

/-- Alternative `[-+] \[([x\-> ])\] ` at the start of `r`. -/
def taskAltA (r : List Char) : Option Char :=
  if chIs r 1 ' ' && chIs r 2 '[' && chIs r 4 ']' && chIs r 5 ' ' then
    match r[0]?, r[3]? with
    | some c1, some m =>
      if (c1 == '-' || c1 == '+') && isTaskMarkerChar m then some m else none
    | _, _ => none
  else none

/-- Alternative `(\*) `. -/
def taskAltB (r : List Char) : Bool :=
  chIs r 0 '*' && chIs r 1 ' '

/-- Alternative `([-+]) `. -/
def taskAltC (r : List Char) : Option Char :=
  match r[0]? with
  | some c => if (c == '-' || c == '+') && chIs r 1 ' ' then some c else none
  | none => none

/-- `text.match(/^(\s*)([-+] \[([x\-> ])\] |(\*) |([-+]) )/)`. -/
def taskAt (t : List Char) : Option TaskM :=
  match taskAltA (t.drop (t.takeWhile jsSpace).length) with
  | some m => some ⟨t.takeWhile jsSpace, 6, some m, false, none⟩
  | none =>
    if taskAltB (t.drop (t.takeWhile jsSpace).length) then
      some ⟨t.takeWhile jsSpace, 2, none, true, none⟩
    else
      match taskAltC (t.drop (t.takeWhile jsSpace).length) with
      | some c => some ⟨t.takeWhile jsSpace, 2, none, false, some c⟩
      | none => none

/-- `^\[.?\]` — the mid-edit checkbox test applied to `afterMarker`. -/
def bracketStateAhead (after : List Char) : Bool :=
  chIs after 0 '[' && (chIs after 2 ']' || chIs after 1 ']')

/-- The builder's task-state / bullet classification (lines 473–489 of
`live-preview.ts`): marker char `x`/`-`/`>`/space maps to
done/cancelled/scheduled/open, `*` is a plain bullet, a bare `-`/`+` is
an open task unless a bracket-state token follows. -/
def taskClass (t : List Char) (tm : TaskM) : Option TaskState × Bool :=
  match tm.marker with
  | some m =>
    (some (if m == 'x' then .done
           else if m == '-' then .cancelled
           else if m == '>' then .scheduled
           else .open_), false)
  | none =>
    if tm.g4 then (none, true)
    else
      match tm.g5 with
      | some _ =>
        if bracketStateAhead (t.drop (tm.indent.length + 2)) then (none, false)
        else (some .open_, false)
      | none => (none, false)

/-- The tree pass's interpretation of a GFM `TaskMarker` node's text
(lines 246–247 of `live-preview.ts`): checked iff the second character is
`x` or `X`. -/
def treeTaskState (markerText : List Char) : TaskState :=
  if decide (2 ≤ markerText.length) && (chIs markerText 1 'x' || chIs markerText 1 'X')
  then .done else .open_

/-! ## Per-line decoration generation -/

/-- Heading branch (regex path): line class, then fade over the `#` run or
hide over run + following whitespace char. -/
def headingDecos (t : List Char) (lfrom : Nat) (onCursor : Bool) (cursor : Nat) :
    List Deco :=
  match headingMatch t with
  | none => []
  | some n =>
    ⟨.lineHeading n, lfrom, lfrom⟩ ::
    (if onCursor && cursorIn cursor lfrom (lfrom + n + 1)
     then [⟨.fade, lfrom, lfrom + n⟩]
     else [⟨.hide, lfrom, lfrom + n + 1⟩])

/-- Blockquote branch (regex path). -/
def quoteDecos (t : List Char) (lfrom : Nat) (onCursor : Bool) (cursor : Nat) :
    List Deco :=
  match quoteMatch t with
  | none => []
  | some m =>
    ⟨.lineBlockquote, lfrom, lfrom⟩ ::
    (if onCursor && cursorIn cursor lfrom (lfrom + m)
     then [⟨.fade, lfrom, lfrom + m⟩]
     else [⟨.hide, lfrom, lfrom + m⟩])

/-- Tab-indented paragraph branch (the caller applies the guard that the
line is not a heading, blockquote, or task). -/
def tabDecos (t : List Char) (lfrom : Nat) (onCursor : Bool) (cursor : Nat) :
    List Deco :=
  if tabRun t = 0 then []
  else if onCursor && cursorIn cursor lfrom (lfrom + tabRun t) then []
  else
    [⟨.hide, lfrom, lfrom + tabRun t⟩,
     ⟨.lineIndent (min (tabRun t) 3), lfrom, lfrom⟩]

/-- The hide/mark/hide (or fade/mark/fade) triple of a symmetric inline
span with delimiter length `ml`. -/
def symDecos (reveal : Bool) (mk : DKind) (ml S E : Nat) : List Deco :=
  if reveal then [⟨.fade, S, S + ml⟩, ⟨mk, S + ml, E - ml⟩, ⟨.fade, E - ml, E⟩]
  else [⟨.hide, S, S + ml⟩, ⟨mk, S + ml, E - ml⟩, ⟨.hide, E - ml, E⟩]

def boldDecos (t : List Char) (lfrom : Nat) (onCursor : Bool) (cursor : Nat) :
    List Deco :=
  flatM (fun (m : Nat × Nat × Unit) =>
      symDecos (onCursor && cursorIn cursor (lfrom + m.1) (lfrom + m.2.1))
        .boldMark 2 (lfrom + m.1) (lfrom + m.2.1))
    (scanAll (boldAt t) 0 (t.length + 1))

def italicDecos (t : List Char) (lfrom : Nat) (onCursor : Bool) (cursor : Nat) :
    List Deco :=
  flatM (fun (m : Nat × Nat × Unit) =>
      symDecos (onCursor && cursorIn cursor (lfrom + m.1) (lfrom + m.2.1))
        .italicMark 1 (lfrom + m.1) (lfrom + m.2.1))
    (scanAll (italicAt t) 0 (t.length + 1))

def strikeDecos (t : List Char) (lfrom : Nat) (onCursor : Bool) (cursor : Nat) :
    List Deco :=
  flatM (fun (m : Nat × Nat × Unit) =>
      symDecos (onCursor && cursorIn cursor (lfrom + m.1) (lfrom + m.2.1))
        .strikeMark 2 (lfrom + m.1) (lfrom + m.2.1))
    (scanAll (strikeAt t) 0 (t.length + 1))

def codeDecos (t : List Char) (lfrom : Nat) (onCursor : Bool) (cursor : Nat) :
    List Deco :=
  flatM (fun (m : Nat × Nat × Unit) =>
      symDecos (onCursor && cursorIn cursor (lfrom + m.1) (lfrom + m.2.1))
        .codeMark 1 (lfrom + m.1) (lfrom + m.2.1))
    (scanAll (codeAt t) 0 (t.length + 1))

def wikiDecos (t : List Char) (lfrom : Nat) (onCursor : Bool) (cursor : Nat) :
    List Deco :=
  flatM (fun (m : Nat × Nat × List Char) =>
      symDecos (onCursor && cursorIn cursor (lfrom + m.1) (lfrom + m.2.1))
        (.wikilinkMark m.2.2) 2 (lfrom + m.1) (lfrom + m.2.1))
    (scanAll (wikiAt t) 0 (t.length + 1))

/-- External-link branch: `[text](url)` hides brackets/url and appends an
arrow point-widget when not revealed; a bare URL is only marked. -/
def extDecosOne (lfrom : Nat) (onCursor : Bool) (cursor : Nat)
    (m : Nat × Nat × ExtM) : List Deco :=
  match m.2.2 with
  | .md textLen url =>
    if onCursor && cursorIn cursor (lfrom + m.1) (lfrom + m.2.1) then
      [⟨.fade, lfrom + m.1, lfrom + m.1 + 1⟩,
       ⟨.extlinkMark url, lfrom + m.1 + 1, lfrom + m.1 + 1 + textLen⟩,
       ⟨.fade, lfrom + m.1 + 1 + textLen, lfrom + m.2.1⟩]
    else
      [⟨.hide, lfrom + m.1, lfrom + m.1 + 1⟩,
       ⟨.extlinkMark url, lfrom + m.1 + 1, lfrom + m.1 + 1 + textLen⟩,
       ⟨.hide, lfrom + m.1 + 1 + textLen, lfrom + m.2.1⟩,
       ⟨.arrowWidget url, lfrom + m.1 + 1 + textLen, lfrom + m.1 + 1 + textLen⟩]
  | .bare url => [⟨.extlinkMark url, lfrom + m.1, lfrom + m.1 + url.length⟩]

def extDecos (t : List Char) (lfrom : Nat) (onCursor : Bool) (cursor : Nat) :
    List Deco :=
  flatM (extDecosOne lfrom onCursor cursor) (scanAll (extAt t) 0 (t.length + 1))

/-- Line-class piece of the task branch: indent hide + indent/list line
classes (lines 497–506 of the source). -/
def taskLinePart (tm : TaskM) (lfrom : Nat) (showingRaw : Bool) : List Deco :=
  if 0 < tm.indent.length then
    (if 0 < min (tm.indent.countP (· == '\t')) 3 then
      [⟨.hide, lfrom, lfrom + tm.indent.length⟩,
       ⟨.lineIndent (min (tm.indent.countP (· == '\t')) 3), lfrom, lfrom⟩]
     else []) ++ [⟨.lineList, lfrom, lfrom⟩]
  else if !showingRaw then [⟨.lineList, lfrom, lfrom⟩] else []

/-- Widget piece of the task branch: the task or bullet replace-glyph
over the marker prefix, suppressed while showing raw (lines 509–517). -/
def taskReplacePart (cls : Option TaskState × Bool) (showingRaw : Bool)
    (prefixStart prefixEnd : Nat) : List Deco :=
  if !showingRaw then
    match cls.1 with
    | some st => [⟨.taskReplace st, prefixStart, prefixEnd⟩]
    | none => if cls.2 then [⟨.bulletReplace, prefixStart, prefixEnd⟩] else []
  else []

/-- Task-state line classes, applied regardless of the cursor
(lines 520–529). -/
def taskStatePart (cls : Option TaskState × Bool) (lfrom lto prefixEnd : Nat) :
    List Deco :=
  match cls.1 with
  | some .done => [⟨.lineDone, lfrom, lfrom⟩]
  | some .cancelled =>
    ⟨.lineCancelled, lfrom, lfrom⟩ ::
    (if prefixEnd < lto then [⟨.cancelledTextMark, prefixEnd, lto⟩] else [])
  | some .scheduled => [⟨.lineScheduled, lfrom, lfrom⟩]
  | _ => []

/-- Task/bullet branch of the builder (lines 467–530 of the source, regex
path). -/
def taskDecos (t : List Char) (lfrom lto : Nat) (onCursor : Bool) (cursor : Nat) :
    List Deco :=
  match taskAt t with
  | none => []
  | some tm =>
    taskLinePart tm lfrom
      (onCursor && cursorIn cursor lfrom (lfrom + tm.indent.length + tm.prefixLen))
    ++ taskReplacePart (taskClass t tm)
        (onCursor && cursorIn cursor lfrom (lfrom + tm.indent.length + tm.prefixLen))
        (lfrom + tm.indent.length) (lfrom + tm.indent.length + tm.prefixLen)
    ++ taskStatePart (taskClass t tm) lfrom lto
        (lfrom + tm.indent.length + tm.prefixLen)

def mentionDecos (t : List Char) (lfrom : Nat) : List Deco :=
  flatM (fun (m : Nat × Nat × List Char) =>
      [⟨.mentionMark m.2.2, lfrom + m.1, lfrom + m.1 + m.2.2.length⟩])
    (scanAll (mentionAt t) 0 (t.length + 1))

def hashtagDecos (t : List Char) (lfrom : Nat) : List Deco :=
  flatM (fun (m : Nat × Nat × List Char) =>
      [⟨.hashtagMark m.2.2, lfrom + m.1, lfrom + m.1 + m.2.2.length⟩])
    (scanAll (hashtagAt t) 0 (t.length + 1))

/-- All decorations of one line, in the source's push order (regex path:
the syntax tree does not cover the document, so `useTreeForBlocks` is
false and `linesWithListFromTree` is empty). -/
def lineDecos (t : List Char) (lfrom lto : Nat) (onCursor : Bool) (cursor : Nat) :
    List Deco :=
  headingDecos t lfrom onCursor cursor ++
  quoteDecos t lfrom onCursor cursor ++
  (if headingMatch t = none ∧ quoteMatch t = none ∧ taskAt t = none
   then tabDecos t lfrom onCursor cursor else []) ++
  boldDecos t lfrom onCursor cursor ++
  italicDecos t lfrom onCursor cursor ++
  strikeDecos t lfrom onCursor cursor ++
  codeDecos t lfrom onCursor cursor ++
  wikiDecos t lfrom onCursor cursor ++
  extDecos t lfrom onCursor cursor ++
  taskDecos t lfrom lto onCursor cursor ++
  mentionDecos t lfrom ++
  hashtagDecos t lfrom

/-! ## Document lines and the full builder -/

/-- Split off the first line: text before the first newline, plus the
remainder after it (if any). -/
def splitFirst : List Char → List Char × Option (List Char)
  | [] => ([], none)
  | '\n' :: r => ([], some r)
  | c :: r =>
    let p := splitFirst r
    (c :: p.1, p.2)

/-- Lines of a document with their starting offsets (fuel-driven so the
definition reduces in the kernel). -/
def linesAux : Nat → Nat → List Char → List (Nat × List Char)
  | 0, pos, t => [(pos, t)]
  | fuel + 1, pos, t =>
    match splitFirst t with
    | (l, none) => [(pos, l)]
    | (l, some r) => (pos, l) :: linesAux fuel (pos + l.length + 1) r

def docLines (doc : List Char) : List (Nat × List Char) :=
  linesAux doc.length 0 doc

/-- The sort comparator of the source:
`(a, b) => a.from - b.from || a.to - b.to`. -/
def decoLeB (a b : Deco) : Bool :=
  decide (a.dfrom < b.dfrom) || (a.dfrom == b.dfrom && decide (a.dto ≤ b.dto))

def decoLe (a b : Deco) : Prop := decoLeB a b = true

instance : DecidableRel decoLe :=
  fun a b => inferInstanceAs (Decidable (decoLeB a b = true))

instance : IsTotal Deco decoLe := by
  constructor
  intro a b
  simp only [decoLe, decoLeB, Bool.or_eq_true, Bool.and_eq_true, decide_eq_true_eq,
    beq_iff_eq]
  omega

instance : IsTrans Deco decoLe := by
  constructor
  intro a b c
  simp only [decoLe, decoLeB, Bool.or_eq_true, Bool.and_eq_true, decide_eq_true_eq,
    beq_iff_eq]
  omega

/-- `buildDecorations(state, cursorPos)` on the regex path: per-line
decorations concatenated in document order, then sorted by
`(from, to)`. `onCursorLine` is the containment test `line.from ≤ cursor ≤
line.to`, which is how `doc.lineAt(cursorPos).number == i` resolves for an
in-document cursor. -/
def buildDecos (doc : List Char) (cursor : Nat) : List Deco :=
  List.insertionSort decoLe
    (flatM (fun pl : Nat × List Char =>
        lineDecos pl.2 pl.1 (pl.1 + pl.2.length)
          (cursorIn cursor pl.1 (pl.1 + pl.2.length)) cursor)
      (docLines doc))

/-! ## Note index: strings and content parsing (`main.ts`) -/

/-- `s.toLowerCase()` (ASCII case mapping, the only one exercised here). -/
def lowerS (s : String) : String := ⟨s.data.map Char.toLower⟩

/-- `s.replace(/\.txt$/, '')`. -/
def dropTxt (s : String) : String :=
  let d := s.data
  if d.drop (d.length - 4) = ".txt".data then ⟨d.take (d.length - 4)⟩ else s

/-- `linkKey`: lowercase filename minus the `.txt` extension. -/
def linkKey (filename : String) : String := lowerS (dropTxt filename)

/-- JS `String.prototype.trim`. -/
def trimL (l : List Char) : List Char :=
  ((l.dropWhile jsSpace).reverse.dropWhile jsSpace).reverse

/-- `needle` is a prefix of `hay`. -/
def startsW : List Char → List Char → Bool
  | _, [] => true
  | [], _ :: _ => false
  | h :: hs, n :: ns => h == n && startsW hs ns

/-- JS `String.prototype.includes`. -/
def containsS : List Char → List Char → Bool
  | [], sub => sub.isEmpty
  | h :: t, sub => startsW (h :: t) sub || containsS t sub

/-- `\[\[(.+?)\]\]` over full document text: `.` does not match a newline,
so the close must be the first `]]` before any newline. -/
def wikiAtDoc (t : List Char) (i : Nat) : Option (Nat × List Char) :=
  if chIs t i '[' && chIs t (i + 1) '[' && !chIs t (i + 2) '\n' then
    match findFrom (fun j => chIs t j '\n' || pairAt t ']' j) (i + 3) t.length with
    | some j => if chIs t j '\n' then none else some (j + 2, slice t (i + 2) j)
    | none => none
  else none

/-- De-duplicating push: `if (!acc.includes(x)) acc.push(x)`. -/
def pushNew [DecidableEq α] (acc : List α) (x : α) : List α :=
  if x ∈ acc then acc else acc ++ [x]

/-- First line matching `^\s*#\s+(.+)$` yields the captured text (before
trimming); the regex is modelled line-locally. -/
def titleOfLine (l : List Char) : Option (List Char) :=
  let w := (l.takeWhile jsSpace).length
  if chIs l w '#' ∧ jsSpaceAt l (w + 1) = true then
    let s := ((l.drop (w + 1)).takeWhile jsSpace).length
    if w + 1 + s < l.length then some (l.drop (w + 1 + s))
    else if 2 ≤ s then some (l.drop (w + s)) else none
  else none

def firstTitle : List (List Char) → Option (List Char)
  | [] => none
  | l :: rest =>
    match titleOfLine l with
    | some c => some c
    | none => firstTitle rest

structure ParsedContent where
  title : Option String
  outgoingLinks : List String
  mentions : List String
  hashtags : List String
deriving DecidableEq, Repr

/-- `parseNoteContent` of `main.ts`: title from the first H1-style line,
wiki-link targets trimmed and de-duplicated in first-appearance order,
mention/hashtag tokens de-duplicated by exact string. -/
def parseNoteContent (text : String) : ParsedContent :=
  let t := text.data
  { title := (firstTitle ((docLines t).map (·.2))).map (fun c => (⟨trimL c⟩ : String))
    outgoingLinks :=
      (scanAll (wikiAtDoc t) 0 (t.length + 1)).foldl
        (fun acc m =>
          let target : String := ⟨trimL m.2.2⟩
          if target = "" then acc else pushNew acc target) []
    mentions :=
      (scanAll (mentionAt t) 0 (t.length + 1)).foldl
        (fun acc m => pushNew acc (⟨m.2.2⟩ : String)) []
    hashtags :=
      (scanAll (hashtagAt t) 0 (t.length + 1)).foldl
        (fun acc m => pushNew acc (⟨m.2.2⟩ : String)) [] }

/-- `parsed.title || fallback` — the empty string is falsy in JS. -/
def titleOr (parsed : Option String) (fallback : String) : String :=
  match parsed with
  | some t => if t = "" then fallback else t
  | none => fallback

/-! ## Note index: state and derived maps -/

structure NoteEntry where
  filename : String
  title : String
  relPath : String
  isArchived : Bool
  isTrashed : Bool
  outgoingLinks : List String
  mentions : List String
  hashtags : List String
deriving DecidableEq, Repr

/-- Association-list lookup (JS `Map.get`). -/
def lookupA (m : List (String × β)) (k : String) : Option β :=
  match m.find? (fun p => p.1 == k) with
  | some p => some p.2
  | none => none

/-- JS `Map.set`: replace in place, else append at the end. -/
def aset (m : List (String × β)) (k : String) (v : β) : List (String × β) :=
  match m with
  | [] => [(k, v)]
  | p :: rest => if p.1 == k then (k, v) :: rest else p :: aset rest k v

/-- Push into the bucket at `k`, creating it at the end if absent. -/
def bucketAdd (m : List (String × List β)) (k : String) (v : β) :
    List (String × List β) :=
  match m with
  | [] => [(k, [v])]
  | p :: rest => if p.1 == k then (p.1, p.2 ++ [v]) :: rest else p :: bucketAdd rest k v

structure IndexState where
  entries : List NoteEntry
  byLinkKey : List (String × List NoteEntry)
  byRelPath : List (String × NoteEntry)
  backlinkIndex : List (String × List String)
deriving DecidableEq, Repr

/-- One entry's contribution to the derived maps. -/
def rmStep (st : IndexState) (e : NoteEntry) : IndexState :=
  { st with
    byRelPath := aset st.byRelPath e.relPath e
    byLinkKey := bucketAdd st.byLinkKey (linkKey e.filename) e
    backlinkIndex :=
      e.outgoingLinks.foldl
        (fun m l => bucketAdd m (lowerS l) e.relPath) st.backlinkIndex }

/-- `rebuildMaps`: derive the three lookup maps from the entry list. -/
def rebuildMaps (entries : List NoteEntry) : IndexState :=
  entries.foldl rmStep
    { entries := entries, byLinkKey := [], byRelPath := [], backlinkIndex := [] }

/-! ## Note index: queries -/

def isActive (e : NoteEntry) : Bool := !e.isArchived && !e.isTrashed

def isArchivedNotTrashed (e : NoteEntry) : Bool := e.isArchived && !e.isTrashed

/-- `resolveLink` (lines 646–667 of the index source). `byFilename` is the
`_byLinkKey` bucket; the reference-equality `includes` check translates to
the bucket-membership test on the entry value. -/
def resolveLink (st : IndexState) (title : String) : Option NoteEntry :=
  let key := lowerS title
  let byFilename := (lookupA st.byLinkKey key).getD []
  let byTitle :=
    st.entries.filter (fun e => lowerS e.title == key && !(decide (e ∈ byFilename)))
  match (byFilename.filter isActive).head? with
  | some e => some e
  | none =>
    match (byTitle.filter isActive).head? with
    | some e => some e
    | none =>
      match (byFilename.filter isArchivedNotTrashed).head? with
      | some e => some e
      | none => (byTitle.filter isArchivedNotTrashed).head?

/-- The claim's description of `resolveLink`: the first active entry
matching by filename key, else the first active entry matching by title,
else the first archived entry by filename key, else the first archived
entry by title, else none — all case-insensitively, never a trashed
entry. -/
def resolveLinkSpec (entries : List NoteEntry) (title : String) : Option NoteEntry :=
  let key := lowerS title
  let fk := fun e : NoteEntry => linkKey e.filename == key
  let tm := fun e : NoteEntry => lowerS e.title == key
  match (entries.filter (fun e => isActive e && fk e)).head? with
  | some e => some e
  | none =>
    match (entries.filter (fun e => isActive e && tm e)).head? with
    | some e => some e
    | none =>
      match (entries.filter (fun e => isArchivedNotTrashed e && fk e)).head? with
      | some e => some e
      | none => (entries.filter (fun e => isArchivedNotTrashed e && tm e)).head?

/-- Keep-first de-duplication (JS `Set` insertion order). -/
def dedupKF (seen : List String) : List String → List String
  | [] => []
  | x :: xs => if x ∈ seen then dedupKF seen xs else x :: dedupKF (x :: seen) xs

/-- `getBacklinks` (lines 672–691): union of the backlink buckets for the
filename key and the title key, excluding the note itself, de-duplicated,
resolved through `_byRelPath`. -/
def getBacklinks (st : IndexState) (relPath : String) : List NoteEntry :=
  match lookupA st.byRelPath relPath with
  | none => []
  | some entry =>
    let k1 := linkKey entry.filename
    let k2 := lowerS entry.title
    let keys := k1 :: (if k2 = k1 then [] else [k2])
    let paths :=
      flatM (fun k =>
          ((lookupA st.backlinkIndex k).getD []).filter (fun p => !(p == relPath)))
        keys
    (dedupKF [] paths).filterMap (fun p => lookupA st.byRelPath p)

/-- Comparator component: total preorder on characters by code point. -/
def charsLe : List Char → List Char → Bool
  | [], _ => true
  | _ :: _, [] => false
  | a :: as, b :: bs =>
    decide (a.toNat < b.toNat) || (decide (a.toNat = b.toNat) && charsLe as bs)

/-- Model of `localeCompare` as used for title tie-breaks: compare the
lowercased character sequences. -/
def titleLeB (a b : NoteEntry) : Bool :=
  charsLe (lowerS a.title).data (lowerS b.title).data

def exactB (q : String) (e : NoteEntry) : Bool :=
  lowerS e.title == q || linkKey e.filename == q

def prefB (q : String) (e : NoteEntry) : Bool :=
  startsW (lowerS e.title).data q.data || startsW (linkKey e.filename).data q.data

/-- Lexicographic tier step: when the tier flags differ the `true` flag
ranks first, otherwise fall through to the next tier. -/
def tieB (xa xb rest : Bool) : Bool :=
  if xa ≠ xb then xa else rest

/-- The `searchNotes` comparator as a `≤` relation: exact match first,
then prefix match, then active before archived, then title order. -/
def searchLeB (q : String) (a b : NoteEntry) : Bool :=
  tieB (exactB q a) (exactB q b)
    (tieB (prefB q a) (prefB q b)
      (tieB (!a.isArchived) (!b.isArchived) (titleLeB a b)))

def searchLe (q : String) (a b : NoteEntry) : Prop := searchLeB q a b = true

instance (q : String) : DecidableRel (searchLe q) :=
  fun a b => inferInstanceAs (Decidable (searchLeB q a b = true))

/-- `searchNotes` (lines 698–732): filter out trashed entries, keep
case-insensitive title/filename substring matches, sort by the ranking
comparator. -/
def searchNotes (st : IndexState) (query : String) : List NoteEntry :=
  if query = "" then []
  else
    let q := lowerS query
    List.insertionSort (searchLe q)
      ((st.entries.filter (fun e => !e.isTrashed)).filter
        (fun e =>
          containsS (lowerS e.title).data q.data
          || containsS (linkKey e.filename).data q.data))

/-! ## Note index: ranked mentions -/

structure MBucket where
  forms : List (String × Nat)
  active : Nat
  total : Nat
deriving DecidableEq, Repr

/-- `forms.set(m, (forms.get(m) || 0) + 1)`. -/
def formBump (forms : List (String × Nat)) (m : String) : List (String × Nat) :=
  match forms with
  | [] => [(m, 1)]
  | p :: rest => if p.1 == m then (p.1, p.2 + 1) :: rest else p :: formBump rest m

/-- The per-mention bucket update of `getMentionsRanked`: the total always
increments; an active entry bumps the count of its casing; an archived
entry only registers the casing with count zero. -/
def addMentionForm (isArchived : Bool) (b : MBucket) (m : String) : MBucket :=
  if !isArchived then
    { forms := formBump b.forms m, active := b.active + 1, total := b.total + 1 }
  else
    { forms := if (lookupA b.forms m).isSome then b.forms else b.forms ++ [(m, 0)]
      active := b.active, total := b.total + 1 }

/-- Process one mention occurrence of one entry, skipping keys already
seen in this entry (the `seen` set). -/
def entryMentionStep (e : NoteEntry) (acc : List (String × MBucket) × List String)
    (m : String) : List (String × MBucket) × List String :=
  if lowerS m ∈ acc.2 then acc
  else
    (aset acc.1 (lowerS m)
      (addMentionForm e.isArchived ((lookupA acc.1 (lowerS m)).getD ⟨[], 0, 0⟩) m),
     lowerS m :: acc.2)

/-- One entry's pass of the aggregation loop: trashed entries are
skipped; otherwise every mention is processed with a fresh `seen` set. -/
def aggStep (agg : List (String × MBucket)) (e : NoteEntry) :
    List (String × MBucket) :=
  if e.isTrashed then agg
  else (e.mentions.foldl (entryMentionStep e) (agg, [])).1

/-- The aggregation loop of `getMentionsRanked` (lines 752–774). -/
def aggMentions (entries : List NoteEntry) : List (String × MBucket) :=
  entries.foldl aggStep []

/-- Canonical form: the first casing attaining the maximal count
(`cnt > bestCount` is strict, so the first maximum wins). -/
def canonicalOf (forms : List (String × Nat)) : String :=
  (forms.foldl
    (fun (acc : String × Int) p =>
      if (p.2 : Int) > acc.2 then (p.1, (p.2 : Int)) else acc)
    ("", -1)).1

structure MentionGroup where
  mention : String
  count : Nat
  archiveOnly : Bool
deriving DecidableEq, Repr

/-- Sort: archive-only groups last, then case-insensitive alphabetical
(`localeCompare` with base sensitivity, modelled on lowercased text). -/
def groupLeB (a b : MentionGroup) : Bool :=
  if a.archiveOnly ≠ b.archiveOnly then b.archiveOnly
  else charsLe (lowerS a.mention).data (lowerS b.mention).data

def groupLe (a b : MentionGroup) : Prop := groupLeB a b = true

instance : DecidableRel groupLe :=
  fun a b => inferInstanceAs (Decidable (groupLeB a b = true))

/-- `getMentionsRanked` (lines 748–792). -/
def getMentionsRanked (entries : List NoteEntry) : List MentionGroup :=
  List.insertionSort groupLe
    ((aggMentions entries).map (fun p =>
      ⟨canonicalOf p.2.forms, p.2.active, decide (p.2.active = 0)⟩))

/-! ## Note index: update and insert -/

/-- The field updates `updateEntry` applies to an existing entry. -/
def reparseEntry (e : NoteEntry) (content : String) : NoteEntry :=
  let parsed := parseNoteContent content
  { e with
    title := titleOr parsed.title (dropTxt e.filename)
    outgoingLinks := parsed.outgoingLinks
    mentions := parsed.mentions
    hashtags := parsed.hashtags }

/-- `updateEntry` (lines 858–868): a path missing from `_byRelPath` is a
silent no-op; otherwise the entry is re-parsed in place and the maps are
rebuilt. -/
def updateEntry (st : IndexState) (relPath content : String) : IndexState :=
  match lookupA st.byRelPath relPath with
  | none => st
  | some _ =>
    rebuildMaps
      (st.entries.map (fun e =>
        if e.relPath == relPath then reparseEntry e content else e))

/-- `addEntry` (lines 873–888). -/
def addEntry (st : IndexState) (relPath filename content : String) : IndexState :=
  let parsed := parseNoteContent content
  rebuildMaps (st.entries ++
    [{ filename := filename
       title := titleOr parsed.title (dropTxt filename)
       relPath := relPath
       isArchived := containsS relPath.data "/@Archive/".data
       isTrashed := containsS relPath.data "/@Trash/".data
       outgoingLinks := parsed.outgoingLinks
       mentions := parsed.mentions
       hashtags := parsed.hashtags }])

/-! ## Mention search (`searchMention` / `searchLines`) -/

/-- Case-insensitive literal match of `needle` at position `i`
(the `i` regex flag; the token is regex-escaped, hence literal). -/
def ciMatches (hay : List Char) (i : Nat) : List Char → Bool
  | [] => true
  | n :: ns =>
    (match hay[i]? with
     | some c => Char.toLower c == Char.toLower n
     | none => false) && ciMatches hay (i + 1) ns

/-- The negative lookahead `(?![A-Za-z0-9_/\-&])` at position `j`. -/
def notWordCharAt (t : List Char) (j : Nat) : Bool :=
  match t[j]? with
  | some c => !jsWordChar c
  | none => true

/-- The compiled mention-search regex
`(?:^|(?<=\s))TOKEN(?![A-Za-z0-9_/\-&])` (flag `i`) at position `i`. -/
def mentionTokenAtCI (mention line : List Char) (i : Nat) : Bool :=
  (i == 0 || jsSpaceAt line (i - 1))
  && ciMatches line i mention
  && notWordCharAt line (i + mention.length)

/-- `re.test(line)` for that regex. -/
def mentionLineTest (mention line : List Char) : Bool :=
  (List.range (line.length + 1)).any (mentionTokenAtCI mention line)

/-- The done/cancelled test of `searchLines`:
`/^\s*[-+] \[x\] /.test(line) || /^\s*[-+] \[-\] /.test(line)`
(the greedy `\s*` run is forced: a shorter run would put a whitespace
character where `[-+]` must match). -/
def isDoneLine (line : List Char) : Bool :=
  match line.dropWhile jsSpace with
  | c :: ' ' :: '[' :: m :: ']' :: ' ' :: _ =>
    (c == '-' || c == '+') && (m == 'x' || m == '-')
  | _ => false

def numberLines : Nat → List (List Char) → List (Nat × List Char)
  | _, [] => []
  | n, l :: rest => (n, l) :: numberLines (n + 1) rest

/-- The per-file line scan of `searchLines` (lines 930–935): 1-indexed
lines matching the mention regex, each flagged done or not. -/
def searchLinesModel (mention text : String) : List (Nat × List Char × Bool) :=
  (numberLines 1 ((docLines text.data).map (·.2))).filterMap
    (fun p =>
      if mentionLineTest mention.data p.2 then some (p.1, p.2, isDoneLine p.2)
      else none)

/-! ## Statement-support definitions -/

/-- The annotation is a `Hide` (the source's `hidden` replace-decoration). -/
def isHideK : DKind → Bool
  | .hide => true
  | _ => false

/-- The annotation is a style `Mark` (`Decoration.mark`; the fade mark is
its own `Fade` kind in the spec's taxonomy). -/
def isMarkK : DKind → Bool
  | .boldMark | .italicMark | .strikeMark | .codeMark | .cancelledTextMark => true
  | .wikilinkMark _ | .extlinkMark _ | .mentionMark _ | .hashtagMark _ => true
  | _ => false

/-- The annotation is a `Replace` glyph (task or bullet widget). -/
def isReplaceK : DKind → Bool
  | .taskReplace _ | .bulletReplace => true
  | _ => false

/-- The annotation carries a task classification (task-state widget or a
done/cancelled/scheduled line class). -/
def isTaskAnno : DKind → Bool
  | .taskReplace _ | .lineDone | .lineCancelled | .lineScheduled => true
  | _ => false

/-- Half-open ranges `[dfrom, dto)` intersect. -/
def overlapB (a b : Deco) : Bool :=
  decide (a.dfrom < b.dto) && decide (b.dfrom < a.dto)

/-- Some (unordered) pair of distinct positions satisfies `p`. -/
def anyPair (p : α → α → Bool) : List α → Bool
  | [] => false
  | x :: xs => xs.any (p x) || anyPair p xs

/-- The claim's wording for the done flag: the line begins with a
done (`[x]`) or cancelled (`[-]`) task marker form. -/
def beginsWithDoneForm (line : List Char) : Prop :=
  ∃ ws c m rest, line = ws ++ c :: ' ' :: '[' :: m :: ']' :: ' ' :: rest
    ∧ (∀ x ∈ ws, jsSpace x = true) ∧ (c = '-' ∨ c = '+') ∧ (m = 'x' ∨ m = '-')

/-- The entry mentions some casing of the (lowercase) key. -/
def hasMentionKey (key : String) (e : NoteEntry) : Bool :=
  e.mentions.any (fun m => lowerS m == key)

/-- Number of distinct active entries containing any casing of the key. -/
def countActive (entries : List NoteEntry) (key : String) : Nat :=
  entries.countP (fun e => isActive e && hasMentionKey key e)

/-- Number of active entries that use the exact casing `form`
(the claim's notion of a casing's usage count). -/
def countActiveUsing (entries : List NoteEntry) (form : String) : Nat :=
  entries.countP (fun e => isActive e && decide (form ∈ e.mentions))

/-- The first casing of the (lowercase) key appearing in a mention list —
the single casing per entry that the aggregation's `seen` set retains. -/
def firstCasing (key : String) (ms : List String) : Option String :=
  ms.find? (fun m => lowerS m == key)

/-- Number of active entries whose first-listed casing of the key is
`form` — the usage count the code actually aggregates per casing. -/
def countActiveFirstCasing (entries : List NoteEntry) (key form : String) : Nat :=
  entries.countP (fun e =>
    isActive e && (firstCasing key e.mentions == some form))

/-- The forms-map component of the per-mention bucket update: an active
entry bumps the casing's counter (registering it at 1 if new); an
archived entry only registers the casing with counter 0. -/
def formStep (isArchived : Bool) (forms : List (String × Nat)) (m : String) :
    List (String × Nat) :=
  if !isArchived then formBump forms m
  else if (lookupA forms m).isSome then forms else forms ++ [(m, 0)]

/-- One entry's effect on the bucket of one fixed lowercase key: trashed
entries do nothing, otherwise the first-listed casing of the key (if any)
is fed to the bucket update. -/
def bucketStep (key : String) (b : Option MBucket) (e : NoteEntry) :
    Option MBucket :=
  if e.isTrashed then b
  else
    match firstCasing key e.mentions with
    | some m => some (addMentionForm e.isArchived (b.getD ⟨[], 0, 0⟩) m)
    | none => b

/-- The forms map of one key accumulated over the entry list. -/
def formsFoldFrom (entries : List NoteEntry) (key : String)
    (fs : List (String × Nat)) : List (String × Nat) :=
  entries.foldl
    (fun fs e =>
      if e.isTrashed then fs
      else
        match firstCasing key e.mentions with
        | some m => formStep e.isArchived fs m
        | none => fs) fs

def formsOf (entries : List NoteEntry) (key : String) : List (String × Nat) :=
  formsFoldFrom entries key []

/-- The first-listed casings of the key contributed by the non-trashed
entries, in entry order — the stream of casings the forms map sees. -/
def mentionStream (entries : List NoteEntry) (key : String) : List String :=
  entries.filterMap
    (fun e => if e.isTrashed then none else firstCasing key e.mentions)

/-- Registration order of the distinct casings of a mention group: the
keep-first de-duplication of the stream of first-listed casings (an
archived entry registers a casing, at score zero, like any other). -/
def regOrder (entries : List NoteEntry) (key : String) : List String :=
  dedupKF [] (mentionStream entries key)

/-- The first list element whose count no later element exceeds — the
first position attaining the maximal count. -/
def firstArgmax : List (String × Nat) → String
  | [] => ""
  | p :: rest =>
    if rest.all (fun q => q.2 ≤ p.2) then p.1 else firstArgmax rest

/-- Last entry of the list with the given path (what `Map.set` in entry
order leaves in `_byRelPath`). -/
def findLastEntry (p : String) : List NoteEntry → Option NoteEntry
  | [] => none
  | e :: rest =>
    match findLastEntry p rest with
    | some r => some r
    | none => if e.relPath == p then some e else none

/-! ## General lemmas -/

theorem mem_flatM {f : α → List β} {l : List α} {b : β} :
    b ∈ flatM f l ↔ ∃ a ∈ l, b ∈ f a := by
  induction l with
  | nil => simp [flatM]
  | cons x xs ih => simp [flatM, ih]

theorem dropWhile_all_cons {p : Char → Bool} (ws : List Char) (c : Char)
    (l : List Char) (hws : ∀ x ∈ ws, p x = true) (hc : p c = false) :
    (ws ++ c :: l).dropWhile p = c :: l := by
  induction ws with
  | nil => simp [List.dropWhile_cons, hc]
  | cons w ws ih =>
    have hw : p w = true := hws w (by simp)
    simp only [List.cons_append, List.dropWhile_cons, hw, if_true]
    exact ih (fun x hx => hws x (by simp [hx]))

theorem lookupA_cons (p : String × β) (m : List (String × β)) (k : String) :
    lookupA (p :: m) k = if p.1 = k then some p.2 else lookupA m k := by
  by_cases h : p.1 = k <;> simp [lookupA, List.find?_cons, h]

theorem getD_lookupA_bucketAdd (m : List (String × List β)) (k' k : String) (v : β) :
    (lookupA (bucketAdd m k' v) k).getD [] =
      if k' = k then (lookupA m k).getD [] ++ [v] else (lookupA m k).getD [] := by
  induction m with
  | nil =>
    by_cases h : k' = k <;> simp [bucketAdd, lookupA, List.find?_cons, h]
  | cons p rest ih =>
    by_cases hpk' : p.1 = k'
    · by_cases hpk : p.1 = k
      · have hk : k' = k := hpk' ▸ hpk
        simp [bucketAdd, hpk', lookupA_cons, hpk, hk]
      · have hk : ¬(k' = k) := fun h => hpk (h ▸ hpk')
        simp [bucketAdd, hpk', lookupA_cons, hpk, hk]
    · by_cases hpk : p.1 = k
      · have hk : ¬(k' = k) := fun h => hpk' (h ▸ hpk)
        have hkk : ¬(k = k') := fun hh => hpk' (hpk.trans hh)
        simp [bucketAdd, hpk', lookupA_cons, hpk, hk, hkk]
      · simp [bucketAdd, hpk', lookupA_cons, hpk, ih]

theorem lookupA_aset (m : List (String × β)) (k' k : String) (v : β) :
    lookupA (aset m k' v) k = if k' = k then some v else lookupA m k := by
  induction m with
  | nil => by_cases h : k' = k <;> simp [aset, lookupA, List.find?_cons, h]
  | cons p rest ih =>
    by_cases hpk' : p.1 = k'
    · by_cases hpk : p.1 = k
      · have hk : k' = k := hpk' ▸ hpk
        simp [aset, hpk', lookupA_cons, hpk, hk]
      · have hk : ¬(k' = k) := fun h => hpk (h ▸ hpk')
        simp [aset, hpk', lookupA_cons, hpk, hk]
    · by_cases hpk : p.1 = k
      · have hk : ¬(k' = k) := fun h => hpk' (h ▸ hpk)
        have hkk : ¬(k = k') := fun hh => hpk' (hpk.trans hh)
        simp [aset, hpk', lookupA_cons, hpk, hk, hkk]
      · simp [aset, hpk', lookupA_cons, hpk, ih]

theorem byLinkKey_foldl (l : List NoteEntry) (st : IndexState) :
    (l.foldl rmStep st).byLinkKey
      = l.foldl (fun m e => bucketAdd m (linkKey e.filename) e) st.byLinkKey := by
  induction l generalizing st with
  | nil => rfl
  | cons e l ih => rw [List.foldl_cons, List.foldl_cons, ih]; rfl

theorem byRelPath_foldl (l : List NoteEntry) (st : IndexState) :
    (l.foldl rmStep st).byRelPath
      = l.foldl (fun m e => aset m e.relPath e) st.byRelPath := by
  induction l generalizing st with
  | nil => rfl
  | cons e l ih => rw [List.foldl_cons, List.foldl_cons, ih]; rfl

theorem backlinkIndex_foldl (l : List NoteEntry) (st : IndexState) :
    (l.foldl rmStep st).backlinkIndex
      = l.foldl
          (fun m e =>
            e.outgoingLinks.foldl (fun m lk => bucketAdd m (lowerS lk) e.relPath) m)
          st.backlinkIndex := by
  induction l generalizing st with
  | nil => rfl
  | cons e l ih => rw [List.foldl_cons, List.foldl_cons, ih]; rfl

theorem byLinkKey_getD (l : List NoteEntry) (m : List (String × List NoteEntry))
    (k : String) :
    (lookupA (l.foldl (fun m e => bucketAdd m (linkKey e.filename) e) m) k).getD []
      = (lookupA m k).getD [] ++ l.filter (fun e => linkKey e.filename == k) := by
  induction l generalizing m with
  | nil => simp
  | cons e l ih =>
    rw [List.foldl_cons, ih, getD_lookupA_bucketAdd]
    by_cases h : linkKey e.filename = k
    · simp [List.filter_cons, h]
    · simp [List.filter_cons, h]

theorem byLinkKey_rebuild (E : List NoteEntry) (k : String) :
    (lookupA (rebuildMaps E).byLinkKey k).getD []
      = E.filter (fun e => linkKey e.filename == k) := by
  unfold rebuildMaps
  rw [byLinkKey_foldl, byLinkKey_getD]
  simp [lookupA]

theorem decide_mem_filter (E : List α) [DecidableEq α] (p : α → Bool) (e : α)
    (he : e ∈ E) : decide (e ∈ E.filter p) = p e := by
  by_cases h : p e = true <;> simp [List.mem_filter, he, h]

theorem relPath_reparse (x : NoteEntry) (content : String) :
    (reparseEntry x content).relPath = x.relPath := rfl

theorem outgoingLinks_reparse (x : NoteEntry) (content : String) :
    (reparseEntry x content).outgoingLinks = (parseNoteContent content).outgoingLinks :=
  rfl

theorem entries_foldl_rmStep (l : List NoteEntry) (st : IndexState) :
    (l.foldl rmStep st).entries = st.entries := by
  induction l generalizing st with
  | nil => rfl
  | cons e l ih => rw [List.foldl_cons, ih]; rfl

theorem entries_rebuildMaps (es : List NoteEntry) : (rebuildMaps es).entries = es :=
  entries_foldl_rmStep es _

theorem charsLe_total (a b : List Char) : charsLe a b = true ∨ charsLe b a = true := by
  induction a generalizing b with
  | nil => exact Or.inl rfl
  | cons x xs ih =>
    cases b with
    | nil => exact Or.inr rfl
    | cons y ys =>
      rcases Nat.lt_trichotomy x.toNat y.toNat with h | h | h
      · left; simp [charsLe, h]
      · rcases ih ys with hh | hh
        · left; simp [charsLe, h, hh]
        · right; simp [charsLe, h.symm, hh]
      · right; simp [charsLe, h]

theorem charsLe_trans {a b c : List Char} (h1 : charsLe a b = true)
    (h2 : charsLe b c = true) : charsLe a c = true := by
  induction a generalizing b c with
  | nil => rfl
  | cons x xs ih =>
    cases b with
    | nil => simp [charsLe] at h1
    | cons y ys =>
      cases c with
      | nil => simp [charsLe] at h2
      | cons z zs =>
        simp only [charsLe, Bool.or_eq_true, Bool.and_eq_true,
          decide_eq_true_eq] at h1 h2 ⊢
        rcases h1 with h1 | ⟨h1e, h1r⟩ <;> rcases h2 with h2 | ⟨h2e, h2r⟩
        · exact Or.inl (by omega)
        · exact Or.inl (by omega)
        · exact Or.inl (by omega)
        · exact Or.inr ⟨by omega, ih h1r h2r⟩

theorem tieB_total {xa xb ra rb : Bool} (h : ra = true ∨ rb = true) :
    tieB xa xb ra = true ∨ tieB xb xa rb = true := by
  cases xa <;> cases xb <;> simp [tieB] <;> tauto

theorem tieB_trans {xa xb xc r1 r2 r3 : Bool} (h1 : tieB xa xb r1 = true)
    (h2 : tieB xb xc r2 = true) (h3 : r1 = true → r2 = true → r3 = true) :
    tieB xa xc r3 = true := by
  cases xa <;> cases xb <;> cases xc <;> simp [tieB] at * <;> tauto

theorem searchLe_total (q : String) (a b : NoteEntry) :
    searchLe q a b ∨ searchLe q b a := by
  simp only [searchLe, searchLeB, titleLeB]
  exact tieB_total (tieB_total (tieB_total (charsLe_total _ _)))

theorem searchLe_trans (q : String) {a b c : NoteEntry} (h1 : searchLe q a b)
    (h2 : searchLe q b c) : searchLe q a c := by
  simp only [searchLe, searchLeB, titleLeB] at *
  exact tieB_trans h1 h2 (fun u1 u2 =>
    tieB_trans u1 u2 (fun v1 v2 =>
      tieB_trans v1 v2 (fun w1 w2 => charsLe_trans w1 w2)))

theorem byRelPath_fold_lookup (l : List NoteEntry) (m : List (String × NoteEntry))
    (p : String) :
    lookupA (l.foldl (fun m e => aset m e.relPath e) m) p
      = match findLastEntry p l with
        | some e => some e
        | none => lookupA m p := by
  induction l generalizing m with
  | nil => simp [findLastEntry]
  | cons e l ih =>
    rw [List.foldl_cons, ih]
    cases hfl : findLastEntry p l with
    | some r => simp [findLastEntry, hfl]
    | none =>
      rw [lookupA_aset]
      by_cases h : e.relPath = p <;> simp [findLastEntry, hfl, h]

theorem byRelPath_rebuild (E : List NoteEntry) (p : String) :
    lookupA (rebuildMaps E).byRelPath p
      = match findLastEntry p E with
        | some e => some e
        | none => none := by
  unfold rebuildMaps
  rw [byRelPath_foldl, byRelPath_fold_lookup]
  cases findLastEntry p E <;> simp [lookupA]

theorem findLast_none {E : List NoteEntry} {p : String}
    (h : ∀ b ∈ E, b.relPath ≠ p) : findLastEntry p E = none := by
  induction E with
  | nil => rfl
  | cons e l ih =>
    have he : e.relPath ≠ p := h e (by simp)
    rw [findLastEntry, ih (fun b hb => h b (by simp [hb]))]
    simp [he]

theorem findLast_unique {E : List NoteEntry} {A : NoteEntry}
    (hU : E.Pairwise (fun a b => a.relPath ≠ b.relPath)) (hA : A ∈ E) :
    findLastEntry A.relPath E = some A := by
  induction E with
  | nil => cases hA
  | cons e l ih =>
    rw [List.pairwise_cons] at hU
    rcases List.mem_cons.mp hA with rfl | hA'
    · have : findLastEntry A.relPath l = none :=
        findLast_none (fun b hb => (hU.1 b hb).symm)
      rw [findLastEntry, this]
      simp
    · rw [findLastEntry, ih hU.2 hA']

theorem findLast_relPath {E : List NoteEntry} {p : String} {e : NoteEntry}
    (h : findLastEntry p E = some e) : e.relPath = p := by
  induction E with
  | nil => cases h
  | cons x l ih =>
    rw [findLastEntry] at h
    cases hfl : findLastEntry p l with
    | some r =>
      rw [hfl] at h
      injection h with h'
      rw [h'] at hfl
      exact ih hfl
    | none =>
      rw [hfl] at h
      by_cases hx : (x.relPath == p) = true
      · simp [hx] at h
        subst h
        exact beq_iff_eq.mp hx
      · simp [hx] at h

theorem findLast_mem {E : List NoteEntry} {p : String} {e : NoteEntry}
    (h : findLastEntry p E = some e) : e ∈ E := by
  induction E with
  | nil => cases h
  | cons x l ih =>
    rw [findLastEntry] at h
    cases hfl : findLastEntry p l with
    | some r =>
      rw [hfl] at h
      injection h with h'
      rw [h'] at hfl
      exact List.mem_cons_of_mem _ (ih hfl)
    | none =>
      rw [hfl] at h
      by_cases hx : (x.relPath == p) = true
      · simp [hx] at h
        simp [h]
      · simp [hx] at h

theorem backlink_links_getD (links : List String) (m : List (String × List String))
    (path : String) (k : String) :
    (lookupA (links.foldl (fun m lk => bucketAdd m (lowerS lk) path) m) k).getD []
      = (lookupA m k).getD []
        ++ (links.filter (fun lk => lowerS lk == k)).map (fun _ => path) := by
  induction links generalizing m with
  | nil => simp
  | cons lk links ih =>
    rw [List.foldl_cons, ih, getD_lookupA_bucketAdd]
    by_cases h : lowerS lk = k
    · simp [List.filter_cons, h]
    · simp [List.filter_cons, h]

theorem backlink_getD (E : List NoteEntry) (m : List (String × List String))
    (k : String) :
    (lookupA (E.foldl
        (fun m e =>
          e.outgoingLinks.foldl (fun m lk => bucketAdd m (lowerS lk) e.relPath) m)
        m) k).getD []
      = (lookupA m k).getD []
        ++ flatM (fun e =>
            (e.outgoingLinks.filter (fun lk => lowerS lk == k)).map
              (fun _ => e.relPath)) E := by
  induction E generalizing m with
  | nil => simp [flatM]
  | cons e E ih =>
    rw [List.foldl_cons, ih, backlink_links_getD]
    simp [flatM]

theorem backlink_bucket_mem (E : List NoteEntry) (k p : String) :
    p ∈ (lookupA (rebuildMaps E).backlinkIndex k).getD []
      ↔ ∃ e ∈ E, e.relPath = p ∧ ∃ l ∈ e.outgoingLinks, lowerS l = k := by
  unfold rebuildMaps
  rw [backlinkIndex_foldl, backlink_getD]
  simp only [lookupA, List.find?_nil, Option.getD_none, List.nil_append]
  rw [mem_flatM]
  constructor
  · rintro ⟨e, he, hp⟩
    simp only [List.mem_map, List.mem_filter] at hp
    obtain ⟨l, ⟨hl, hlk⟩, rfl⟩ := hp
    exact ⟨e, he, rfl, l, hl, beq_iff_eq.mp hlk⟩
  · rintro ⟨e, he, rfl, l, hl, hlk⟩
    refine ⟨e, he, ?_⟩
    simp only [List.mem_map, List.mem_filter]
    exact ⟨l, ⟨hl, beq_iff_eq.mpr hlk⟩, trivial⟩

theorem dedupKF_mem (l : List String) (seen : List String) (x : String) :
    x ∈ dedupKF seen l ↔ x ∈ l ∧ x ∉ seen := by
  induction l generalizing seen with
  | nil => simp [dedupKF]
  | cons y ys ih =>
    rw [dedupKF]
    by_cases hy : y ∈ seen
    · rw [if_pos hy, ih]
      constructor
      · rintro ⟨h1, h2⟩
        exact ⟨List.mem_cons_of_mem _ h1, h2⟩
      · rintro ⟨h1, h2⟩
        rcases List.mem_cons.mp h1 with rfl | h1
        · exact absurd hy h2
        · exact ⟨h1, h2⟩
    · rw [if_neg hy]
      constructor
      · intro h
        rcases List.mem_cons.mp h with rfl | h
        · exact ⟨by simp, hy⟩
        · rw [ih] at h
          refine ⟨List.mem_cons_of_mem _ h.1, ?_⟩
          intro hx
          exact h.2 (by simp [hx])
      · rintro ⟨h1, h2⟩
        rcases List.mem_cons.mp h1 with rfl | h1
        · simp
        · by_cases hxy : x = y
          · simp [hxy]
          · refine List.mem_cons_of_mem _ ?_
            rw [ih]
            exact ⟨h1, fun hx => by
              rcases List.mem_cons.mp hx with h | h
              · exact hxy h
              · exact h2 h⟩

/-! # Claim theorems -/

/-- **C1.** For every built index and link target, `resolveLink` returns
the first entry in the priority order: (1) an active entry matching by
filename key, (2) an active entry matching by title, (3) an archived
entry matching by filename key, (4) an archived entry matching by title —
all case-insensitively; a trashed entry is never returned, and with no
match the result is `none`. In particular, with one active `Foo.txt` and
one archived `Foo.txt` at different paths, `resolveLink "Foo"` returns
the active entry. -/
theorem resolveLink_spec_correct :
    (∀ (E : List NoteEntry) (target : String),
        resolveLink (rebuildMaps E) target = resolveLinkSpec E target)
    ∧ resolveLink (rebuildMaps
        [⟨"Foo.txt", "Foo", "Notes/@Archive/Foo.txt", true, false, [], [], []⟩,
         ⟨"Foo.txt", "Foo", "Notes/Foo.txt", false, false, [], [], []⟩]) "Foo"
      = some ⟨"Foo.txt", "Foo", "Notes/Foo.txt", false, false, [], [], []⟩ := by
  constructor
  · intro E target
    simp only [resolveLink, resolveLinkSpec, byLinkKey_rebuild, entries_rebuildMaps]
    have hT :
        E.filter (fun e => lowerS e.title == lowerS target
            && !(decide (e ∈ E.filter (fun e => linkKey e.filename == lowerS target))))
          = E.filter (fun e => lowerS e.title == lowerS target
              && !(linkKey e.filename == lowerS target)) := by
      refine List.filter_congr ?_
      intro e he
      rw [decide_mem_filter E _ e he]
    rw [hT]
    have h1eq :
        (E.filter (fun e => linkKey e.filename == lowerS target)).filter isActive
          = E.filter (fun e => isActive e && linkKey e.filename == lowerS target) := by
      rw [List.filter_filter]
    have h3eq :
        (E.filter (fun e => linkKey e.filename == lowerS target)).filter
            isArchivedNotTrashed
          = E.filter (fun e =>
              isArchivedNotTrashed e && linkKey e.filename == lowerS target) := by
      rw [List.filter_filter]
    rw [h1eq, h3eq]
    cases h1 : (E.filter
        (fun e => isActive e && linkKey e.filename == lowerS target)).head? with
    | some e => rfl
    | none =>
      have hemp1 : ∀ e ∈ E,
          ¬(isActive e && linkKey e.filename == lowerS target) = true := by
        rw [← List.filter_eq_nil_iff]
        exact List.head?_eq_none_iff.mp h1
      have h2eq :
          (E.filter (fun e => lowerS e.title == lowerS target
              && !(linkKey e.filename == lowerS target))).filter isActive
            = E.filter (fun e => isActive e && lowerS e.title == lowerS target) := by
        rw [List.filter_filter]
        refine List.filter_congr ?_
        intro e he
        have h := hemp1 e he
        cases hact : isActive e <;> cases htm : (lowerS e.title == lowerS target) <;>
          cases hfk : (linkKey e.filename == lowerS target) <;> simp_all
      rw [h2eq]
      cases h2 : (E.filter
          (fun e => isActive e && lowerS e.title == lowerS target)).head? with
      | some e => rfl
      | none =>
        cases h3 : (E.filter (fun e =>
            isArchivedNotTrashed e && linkKey e.filename == lowerS target)).head? with
        | some e => rfl
        | none =>
          have hemp3 : ∀ e ∈ E,
              ¬(isArchivedNotTrashed e && linkKey e.filename == lowerS target)
                = true := by
            rw [← List.filter_eq_nil_iff]
            exact List.head?_eq_none_iff.mp h3
          have h4eq :
              (E.filter (fun e => lowerS e.title == lowerS target
                  && !(linkKey e.filename == lowerS target))).filter
                  isArchivedNotTrashed
                = E.filter (fun e =>
                    isArchivedNotTrashed e && lowerS e.title == lowerS target) := by
            rw [List.filter_filter]
            refine List.filter_congr ?_
            intro e he
            have h := hemp3 e he
            cases hact : isArchivedNotTrashed e <;>
              cases htm : (lowerS e.title == lowerS target) <;>
              cases hfk : (linkKey e.filename == lowerS target) <;> simp_all
          rw [h4eq]
  · decide

/-- **C3.** For every document text and cursor offset, the annotation
list produced by the builder is sorted in ascending order of the `from`
position, ties between equal `from` positions broken by ascending `to`. -/
theorem buildDecos_sorted (doc : List Char) (cursor : Nat) :
    (buildDecos doc cursor).Pairwise
      (fun a b => a.dfrom < b.dfrom ∨ (a.dfrom = b.dfrom ∧ a.dto ≤ b.dto)) := by
  unfold buildDecos
  refine List.Pairwise.imp ?_ (List.sorted_insertionSort decoLe _)
  intro a b hab
  simp only [decoLe, decoLeB, Bool.or_eq_true, Bool.and_eq_true,
    decide_eq_true_eq, beq_iff_eq] at hab
  tauto

/-- **C4.** For the document `**bold**\nx`: with the cursor immediately
after the first asterisk (offset 1), the builder emits `Fade` (not
`Hide`) over both delimiter pairs `[0,2)` and `[6,8)`; with the cursor on
the second line (offset 9), it emits `Hide` (not `Fade`) over both. -/
theorem bold_reveal_correct :
    ((⟨.fade, 0, 2⟩ : Deco) ∈ buildDecos ("**bold**\nx").data 1
      ∧ (⟨.fade, 6, 8⟩ : Deco) ∈ buildDecos ("**bold**\nx").data 1
      ∧ (⟨.hide, 0, 2⟩ : Deco) ∉ buildDecos ("**bold**\nx").data 1
      ∧ (⟨.hide, 6, 8⟩ : Deco) ∉ buildDecos ("**bold**\nx").data 1)
    ∧ ((⟨.hide, 0, 2⟩ : Deco) ∈ buildDecos ("**bold**\nx").data 9
      ∧ (⟨.hide, 6, 8⟩ : Deco) ∈ buildDecos ("**bold**\nx").data 9
      ∧ (⟨.fade, 0, 2⟩ : Deco) ∉ buildDecos ("**bold**\nx").data 9
      ∧ (⟨.fade, 6, 8⟩ : Deco) ∉ buildDecos ("**bold**\nx").data 9) := by
  decide

/-- **C2, counterexample.** Annotations of the `Hide`/`Replace`/`Mark`
kinds do overlap: on `- [-] @b\nx` (cursor on line 2) the cancelled-task
strikethrough mark and the mention mark overlap (Mark–Mark); on
`[a](http://x**b**)\ny` the external-link hide overlaps the bold
delimiter hides and the bold mark (Hide–Hide, Hide–Mark); on `* a*\nx`
the bullet replace-widget overlaps the italic delimiter hide and the
italic mark (Replace–Hide, Replace–Mark). -/
theorem buildDecos_overlap_counterexample :
    anyPair (fun a b => isMarkK a.kind && isMarkK b.kind && overlapB a b)
        (buildDecos ("- [-] @b\nx").data 10) = true
    ∧ anyPair (fun a b => isHideK a.kind && isHideK b.kind && overlapB a b)
        (buildDecos ("[a](http://x**b**)\ny").data 20) = true
    ∧ anyPair (fun a b =>
          ((isHideK a.kind && isMarkK b.kind) || (isMarkK a.kind && isHideK b.kind))
          && overlapB a b)
        (buildDecos ("[a](http://x**b**)\ny").data 20) = true
    ∧ anyPair (fun a b =>
          ((isReplaceK a.kind && isHideK b.kind) || (isHideK a.kind && isReplaceK b.kind))
          && overlapB a b)
        (buildDecos ("* a*\nx").data 6) = true
    ∧ anyPair (fun a b =>
          ((isReplaceK a.kind && isMarkK b.kind) || (isMarkK a.kind && isReplaceK b.kind))
          && overlapB a b)
        (buildDecos ("* a*\nx").data 6) = true := by
  decide

/-- **C5.** Task classification by the builder: for every cursor position
beyond the marker span, `- buy milk` and `- [ ] buy milk` classify as
open tasks, `- [x] buy milk` as done, `- [-] buy milk` as cancelled,
`- [>] buy milk` as scheduled, and `* buy milk` as a plain bullet with no
task annotation; the structural (syntax-tree) pass's marker
interpretation agrees on the markers it handles (`[ ]` open, `[x]` done;
it delegates `- `, `[-]`, `[>]`, and bullets to the regex pass). -/
theorem task_classification_correct :
    (∀ c : Nat, c < 11 → 2 < c →
        (⟨.taskReplace .open_, 0, 2⟩ : Deco) ∈ buildDecos ("- buy milk").data c
        ∧ ∀ d ∈ buildDecos ("- buy milk").data c,
            isTaskAnno d.kind = true → d.kind = .taskReplace .open_)
    ∧ (∀ c : Nat, c < 15 → 6 < c →
        (⟨.taskReplace .open_, 0, 6⟩ : Deco) ∈ buildDecos ("- [ ] buy milk").data c
        ∧ ∀ d ∈ buildDecos ("- [ ] buy milk").data c,
            isTaskAnno d.kind = true → d.kind = .taskReplace .open_)
    ∧ (∀ c : Nat, c < 15 → 6 < c →
        (⟨.taskReplace .done, 0, 6⟩ : Deco) ∈ buildDecos ("- [x] buy milk").data c
        ∧ (⟨.lineDone, 0, 0⟩ : Deco) ∈ buildDecos ("- [x] buy milk").data c
        ∧ ∀ d ∈ buildDecos ("- [x] buy milk").data c,
            isTaskAnno d.kind = true →
              (d.kind = .taskReplace .done ∨ d.kind = .lineDone))
    ∧ (∀ c : Nat, c < 15 → 6 < c →
        (⟨.taskReplace .cancelled, 0, 6⟩ : Deco) ∈ buildDecos ("- [-] buy milk").data c
        ∧ (⟨.lineCancelled, 0, 0⟩ : Deco) ∈ buildDecos ("- [-] buy milk").data c
        ∧ ∀ d ∈ buildDecos ("- [-] buy milk").data c,
            isTaskAnno d.kind = true →
              (d.kind = .taskReplace .cancelled ∨ d.kind = .lineCancelled))
    ∧ (∀ c : Nat, c < 15 → 6 < c →
        (⟨.taskReplace .scheduled, 0, 6⟩ : Deco) ∈ buildDecos ("- [>] buy milk").data c
        ∧ (⟨.lineScheduled, 0, 0⟩ : Deco) ∈ buildDecos ("- [>] buy milk").data c
        ∧ ∀ d ∈ buildDecos ("- [>] buy milk").data c,
            isTaskAnno d.kind = true →
              (d.kind = .taskReplace .scheduled ∨ d.kind = .lineScheduled))
    ∧ (∀ c : Nat, c < 11 → 2 < c →
        (⟨.bulletReplace, 0, 2⟩ : Deco) ∈ buildDecos ("* buy milk").data c
        ∧ ∀ d ∈ buildDecos ("* buy milk").data c, isTaskAnno d.kind = false)
    ∧ treeTaskState ("[ ]").data = .open_
    ∧ treeTaskState ("[x]").data = .done := by
  refine ⟨?_, ?_, ?_, ?_, ?_, ?_, ?_, ?_⟩ <;> decide

/-- Witness for C5 at cursor offsets 3 and 7 (outside the marker spans). -/
theorem task_classification_correct_witness :
    ((⟨.taskReplace .open_, 0, 2⟩ : Deco) ∈ buildDecos ("- buy milk").data 3)
    ∧ ((⟨.taskReplace .open_, 0, 6⟩ : Deco) ∈ buildDecos ("- [ ] buy milk").data 7)
    ∧ ((⟨.taskReplace .done, 0, 6⟩ : Deco) ∈ buildDecos ("- [x] buy milk").data 7)
    ∧ ((⟨.taskReplace .cancelled, 0, 6⟩ : Deco) ∈ buildDecos ("- [-] buy milk").data 7)
    ∧ ((⟨.taskReplace .scheduled, 0, 6⟩ : Deco) ∈ buildDecos ("- [>] buy milk").data 7)
    ∧ ((⟨.bulletReplace, 0, 2⟩ : Deco) ∈ buildDecos ("* buy milk").data 3) :=
  ⟨(task_classification_correct.1 3 (by decide) (by decide)).1,
   (task_classification_correct.2.1 7 (by decide) (by decide)).1,
   (task_classification_correct.2.2.1 7 (by decide) (by decide)).1,
   (task_classification_correct.2.2.2.1 7 (by decide) (by decide)).1,
   (task_classification_correct.2.2.2.2.1 7 (by decide) (by decide)).1,
   (task_classification_correct.2.2.2.2.2.1 3 (by decide) (by decide)).1⟩

/-- **C7.** For every non-empty query, `searchNotes` returns exactly the
non-trashed entries whose title or filename key contains the query
case-insensitively, ordered by the ranking relation `searchLe`: exact
matches (title or filename key) before prefix matches, prefix matches
before mere substring matches, active before archived within equal rank,
remaining ties alphabetical by title. -/
theorem searchNotes_ranking (st : IndexState) (query : String) (hq : query ≠ "") :
    (∀ e ∈ searchNotes st query,
        e.isTrashed = false
        ∧ (containsS (lowerS e.title).data (lowerS query).data = true
           ∨ containsS (linkKey e.filename).data (lowerS query).data = true))
    ∧ (searchNotes st query).Perm
        ((st.entries.filter (fun e => !e.isTrashed)).filter
          (fun e => containsS (lowerS e.title).data (lowerS query).data
            || containsS (linkKey e.filename).data (lowerS query).data))
    ∧ (searchNotes st query).Pairwise (searchLe (lowerS query)) := by
  unfold searchNotes
  rw [if_neg hq]
  refine ⟨?_, List.perm_insertionSort _ _, ?_⟩
  · intro e he
    rw [List.mem_insertionSort] at he
    rw [List.mem_filter] at he
    obtain ⟨he1, he2⟩ := he
    rw [List.mem_filter] at he1
    refine ⟨by simpa using he1.2, by simpa using he2⟩
  · haveI : IsTotal NoteEntry (searchLe (lowerS query)) := ⟨searchLe_total _⟩
    haveI : IsTrans NoteEntry (searchLe (lowerS query)) :=
      ⟨fun _ _ _ => searchLe_trans _⟩
    exact List.sorted_insertionSort _ _

/-- Witness for C7 on a one-entry index and the query `al`. -/
theorem searchNotes_ranking_witness :
    ("al" : String) ≠ ""
    ∧ ((∀ e ∈ searchNotes (rebuildMaps
            [⟨"Alpha.txt", "Alpha", "N/Alpha.txt", false, false, [], [], []⟩]) "al",
          e.isTrashed = false
          ∧ (containsS (lowerS e.title).data (lowerS "al").data = true
             ∨ containsS (linkKey e.filename).data (lowerS "al").data = true))
      ∧ (searchNotes (rebuildMaps
            [⟨"Alpha.txt", "Alpha", "N/Alpha.txt", false, false, [], [], []⟩]) "al").Perm
          (((rebuildMaps
              [⟨"Alpha.txt", "Alpha", "N/Alpha.txt", false, false, [], [], []⟩]).entries.filter
                (fun e => !e.isTrashed)).filter
            (fun e => containsS (lowerS e.title).data (lowerS "al").data
              || containsS (linkKey e.filename).data (lowerS "al").data))
      ∧ (searchNotes (rebuildMaps
            [⟨"Alpha.txt", "Alpha", "N/Alpha.txt", false, false, [], [], []⟩]) "al").Pairwise
          (searchLe (lowerS "al"))) :=
  ⟨by decide, searchNotes_ranking _ "al" (by decide)⟩

/-- **C6, counterexample.** The canonical form is not the casing used by
the highest number of active entries: with active entries `e1` (mentions
`@ab` then `@Ab`) and `e2` (mentions `@Ab`), the casing `@Ab` is used by
2 active entries and `@ab` by 1, yet `getMentionsRanked` returns
canonical `@ab` — each entry contributes only the first casing it lists,
so the per-casing counts are `@ab` 1, `@Ab` 1 and the first-seen casing
wins the tie. -/
theorem mentionsRanked_canonical_counterexample :
    getMentionsRanked
        [⟨"e1.txt", "e1", "N/e1.txt", false, false, [], ["@ab", "@Ab"], []⟩,
         ⟨"e2.txt", "e2", "N/e2.txt", false, false, [], ["@Ab"], []⟩]
      = [⟨"@ab", 2, false⟩]
    ∧ countActiveUsing
        [⟨"e1.txt", "e1", "N/e1.txt", false, false, [], ["@ab", "@Ab"], []⟩,
         ⟨"e2.txt", "e2", "N/e2.txt", false, false, [], ["@Ab"], []⟩] "@Ab" = 2
    ∧ countActiveUsing
        [⟨"e1.txt", "e1", "N/e1.txt", false, false, [], ["@ab", "@Ab"], []⟩,
         ⟨"e2.txt", "e2", "N/e2.txt", false, false, [], ["@Ab"], []⟩] "@ab" = 1 := by
  refine ⟨?_, ?_, ?_⟩ <;> decide

theorem active_addMentionForm (arch : Bool) (b : MBucket) (m : String) :
    (addMentionForm arch b m).active = b.active + (if arch = true then 0 else 1) := by
  unfold addMentionForm
  cases arch <;> simp

theorem hasMentionKey_iff_firstCasing (k : String) (e : NoteEntry) :
    hasMentionKey k e = true ↔ (firstCasing k e.mentions).isSome = true := by
  unfold hasMentionKey firstCasing
  rw [List.any_eq_true, List.find?_isSome]

theorem mentions_fold_lookup (e : NoteEntry) :
    ∀ (ms : List String) (agg : List (String × MBucket)) (seen : List String)
      (k : String),
    lookupA ((ms.foldl (entryMentionStep e) (agg, seen)).1) k
      = match firstCasing k ms with
        | some m =>
          if k ∈ seen then lookupA agg k
          else some (addMentionForm e.isArchived
              ((lookupA agg k).getD ⟨[], 0, 0⟩) m)
        | none => lookupA agg k := by
  intro ms
  induction ms with
  | nil => intro agg seen k; rfl
  | cons m ms ih =>
    intro agg seen k
    rw [List.foldl_cons]
    by_cases hmem : lowerS m ∈ seen
    · rw [show entryMentionStep e (agg, seen) m = (agg, seen) by
        unfold entryMentionStep; rw [if_pos hmem]]
      rw [ih agg seen k]
      by_cases hk : lowerS m = k
      · rw [show firstCasing k (m :: ms) = some m by
          unfold firstCasing; rw [List.find?_cons_of_pos _ (by simp [hk])]]
        have hkseen : k ∈ seen := hk ▸ hmem
        cases hfc : firstCasing k ms <;> simp [hkseen]
      · rw [show firstCasing k (m :: ms) = firstCasing k ms by
          unfold firstCasing; rw [List.find?_cons_of_neg _ (by simp [hk])]]
    · rw [show entryMentionStep e (agg, seen) m
          = (aset agg (lowerS m)
              (addMentionForm e.isArchived
                ((lookupA agg (lowerS m)).getD ⟨[], 0, 0⟩) m),
             lowerS m :: seen) by
        unfold entryMentionStep; rw [if_neg hmem]]
      rw [ih _ _ k]
      by_cases hk : lowerS m = k
      · subst hk
        rw [show firstCasing (lowerS m) (m :: ms) = some m by
          unfold firstCasing; rw [List.find?_cons_of_pos _ (by simp)]]
        have hlook : lookupA (aset agg (lowerS m)
            (addMentionForm e.isArchived
              ((lookupA agg (lowerS m)).getD ⟨[], 0, 0⟩) m)) (lowerS m)
            = some (addMentionForm e.isArchived
              ((lookupA agg (lowerS m)).getD ⟨[], 0, 0⟩) m) := by
          rw [lookupA_aset]
          simp
        cases hfc : firstCasing (lowerS m) ms <;>
          simp [hlook, hmem, List.mem_cons]
      · rw [show firstCasing k (m :: ms) = firstCasing k ms by
          unfold firstCasing; rw [List.find?_cons_of_neg _ (by simp [hk])]]
        have hlook : lookupA (aset agg (lowerS m)
            (addMentionForm e.isArchived
              ((lookupA agg (lowerS m)).getD ⟨[], 0, 0⟩) m)) k
            = lookupA agg k := by
          rw [lookupA_aset, if_neg hk]
        have hseen : (k ∈ lowerS m :: seen) ↔ k ∈ seen := by
          rw [List.mem_cons]
          constructor
          · rintro (rfl | h)
            · exact absurd rfl hk
            · exact h
          · exact Or.inr
        cases hfc : firstCasing k ms <;> simp [hlook, hseen]

theorem aggStep_lookup_active (agg : List (String × MBucket)) (e : NoteEntry)
    (k : String) :
    (lookupA (aggStep agg e) k).map (·.active)
      = if !e.isTrashed && hasMentionKey k e then
          some (((lookupA agg k).getD ⟨[], 0, 0⟩).active
            + (if e.isArchived = true then 0 else 1))
        else (lookupA agg k).map (·.active) := by
  unfold aggStep
  by_cases htr : e.isTrashed = true
  · simp [htr]
  · rw [if_neg htr]
    rw [mentions_fold_lookup e e.mentions agg [] k]
    cases hfc : firstCasing k e.mentions with
    | some m =>
      have hkey : hasMentionKey k e = true := by
        rw [hasMentionKey_iff_firstCasing, hfc]
        rfl
      simp only [List.not_mem_nil, if_false]
      rw [if_pos (by simp [htr, hkey])]
      simp [active_addMentionForm]
    | none =>
      have hkey : hasMentionKey k e = false := by
        by_contra h
        have := (hasMentionKey_iff_firstCasing k e).mp (by
          cases hh : hasMentionKey k e
          · exact absurd hh h
          · rfl)
        rw [hfc] at this
        cases this
      rw [if_neg (by simp [hkey])]

theorem aggMentions_fold_active :
    ∀ (E : List NoteEntry) (agg : List (String × MBucket)) (k : String),
    (lookupA (E.foldl aggStep agg) k).map (·.active)
      = match (lookupA agg k).map (·.active) with
        | some a => some (a + countActive E k)
        | none =>
          if E.any (fun e => !e.isTrashed && hasMentionKey k e)
          then some (countActive E k) else none := by
  intro E
  induction E with
  | nil =>
    intro agg k
    cases h : (lookupA agg k).map (·.active) <;> simp [countActive, h]
  | cons e E ih =>
    intro agg k
    rw [List.foldl_cons, ih (aggStep agg e) k, aggStep_lookup_active]
    have hcons : countActive (e :: E) k
        = (if isActive e && hasMentionKey k e then 1 else 0) + countActive E k := by
      unfold countActive
      rw [List.countP_cons]
      omega
    by_cases h1 : (!e.isTrashed && hasMentionKey k e) = true
    · rw [if_pos h1]
      have h1b := h1
      simp only [Bool.and_eq_true, Bool.not_eq_true'] at h1
      have hact : isActive e = !e.isArchived := by
        unfold isActive
        rw [h1.1]
        cases e.isArchived <;> rfl
      cases hagg : lookupA agg k with
      | some b =>
        simp only [hagg, Option.getD_some, Option.map_some']
        rw [hcons]
        have : (if isActive e && hasMentionKey k e then 1 else 0)
            = (if e.isArchived = true then 0 else 1) := by
          rw [hact, h1.2]
          cases e.isArchived <;> rfl
        rw [this]
        congr 1
        omega
      | none =>
        simp only [hagg, Option.getD_none, Option.map_none']
        have hany : (e :: E).any (fun e => !e.isTrashed && hasMentionKey k e)
            = true := by
          rw [List.any_cons, h1b]
          rfl
        rw [hany]
        simp only [if_true]
        rw [hcons]
        have : (if isActive e && hasMentionKey k e then 1 else 0)
            = (if e.isArchived = true then 0 else 1) := by
          rw [hact, h1.2]
          cases e.isArchived <;> rfl
        rw [this]
        congr 1
        omega
    · rw [if_neg h1]
      have hz : (if isActive e && hasMentionKey k e then 1 else 0) = 0 := by
        cases htr : e.isTrashed with
        | true =>
          have : isActive e = false := by
            unfold isActive
            rw [htr]
            cases e.isArchived <;> rfl
          simp [this]
        | false =>
          have hkey : hasMentionKey k e = false := by
            by_contra hcon
            apply h1
            simp [htr, Bool.not_eq_false] at hcon ⊢
            exact hcon
          simp [hkey]
      have hany : (e :: E).any (fun e => !e.isTrashed && hasMentionKey k e)
          = E.any (fun e => !e.isTrashed && hasMentionKey k e) := by
        rw [List.any_cons]
        rw [show (!e.isTrashed && hasMentionKey k e) = false by
          cases hh : (!e.isTrashed && hasMentionKey k e)
          · rfl
          · exact absurd hh h1]
        rfl
      rw [hcons, hz, hany]
      cases h2 : (lookupA agg k).map (·.active) <;> simp

theorem lookupA_none_iff (m : List (String × β)) (k : String) :
    lookupA m k = none ↔ ∀ p ∈ m, p.1 ≠ k := by
  unfold lookupA
  cases hf : m.find? (fun p => p.1 == k) with
  | some p =>
    simp only [reduceCtorEq, false_iff]
    intro h
    have := List.find?_some hf
    exact h p (List.mem_of_find?_eq_some hf) (beq_iff_eq.mp this)
  | none =>
    simp only [true_iff]
    intro p hp
    have := List.find?_eq_none.mp hf p hp
    simpa using this

theorem aset_keys (m : List (String × β)) (k : String) (v : β) :
    (aset m k v).map Prod.fst
      = if (lookupA m k).isNone then m.map Prod.fst ++ [k]
        else m.map Prod.fst := by
  induction m with
  | nil => simp [aset, lookupA]
  | cons p rest ih =>
    by_cases hp : p.1 = k
    · rw [show aset (p :: rest) k v = (k, v) :: rest by
        unfold aset; rw [if_pos (beq_iff_eq.mpr hp)]]
      rw [if_neg (by rw [lookupA_cons, if_pos hp]; simp)]
      simp [hp]
    · rw [show aset (p :: rest) k v = p :: aset rest k v by
        simp only [aset]; rw [if_neg (by simp [hp])]]
      rw [lookupA_cons, if_neg hp]
      simp only [List.map_cons]
      rw [ih]
      by_cases hrest : (lookupA rest k).isNone = true
      · rw [if_pos hrest, if_pos hrest]
        rfl
      · rw [if_neg hrest, if_neg hrest]

theorem nodup_keys_aset {m : List (String × β)} (k : String) (v : β)
    (h : (m.map Prod.fst).Nodup) : ((aset m k v).map Prod.fst).Nodup := by
  rw [aset_keys]
  by_cases hl : (lookupA m k).isNone = true
  · rw [if_pos hl]
    rw [List.nodup_append]
    refine ⟨h, List.nodup_singleton k, ?_⟩
    intro a ha hak
    rw [List.mem_singleton] at hak
    subst hak
    rw [List.mem_map] at ha
    obtain ⟨p, hp, hpa⟩ := ha
    exact (lookupA_none_iff m a).mp (Option.isNone_iff_eq_none.mp hl) p hp hpa
  · rw [if_neg hl]
    exact h

theorem nodup_keys_entryFold (e : NoteEntry) :
    ∀ (ms : List String) (acc : List (String × MBucket) × List String),
    (acc.1.map Prod.fst).Nodup →
    (((ms.foldl (entryMentionStep e) acc).1).map Prod.fst).Nodup := by
  intro ms
  induction ms with
  | nil => intro acc h; exact h
  | cons m ms ih =>
    intro acc h
    rw [List.foldl_cons]
    refine ih _ ?_
    unfold entryMentionStep
    by_cases hmem : lowerS m ∈ acc.2
    · rw [if_pos hmem]
      exact h
    · rw [if_neg hmem]
      exact nodup_keys_aset _ _ h

theorem nodup_keys_aggMentions (E : List NoteEntry) :
    ((aggMentions E).map Prod.fst).Nodup := by
  unfold aggMentions
  have aux : ∀ (l : List NoteEntry) (agg : List (String × MBucket)),
      (agg.map Prod.fst).Nodup → ((l.foldl aggStep agg).map Prod.fst).Nodup := by
    intro l
    induction l with
    | nil => intro agg h; exact h
    | cons e l ih =>
      intro agg h
      rw [List.foldl_cons]
      refine ih _ ?_
      unfold aggStep
      by_cases htr : e.isTrashed = true
      · rw [if_pos htr]; exact h
      · rw [if_neg htr]
        exact nodup_keys_entryFold e e.mentions (agg, []) h
  exact aux E [] (by simp)

theorem mem_lookupA_of_nodup {m : List (String × β)}
    (h : (m.map Prod.fst).Nodup) {k : String} {b : β} (hm : (k, b) ∈ m) :
    lookupA m k = some b := by
  induction m with
  | nil => cases hm
  | cons p rest ih =>
    rw [List.map_cons, List.nodup_cons] at h
    rcases List.mem_cons.mp hm with rfl | hm'
    · rw [lookupA_cons, if_pos rfl]
    · by_cases hp : p.1 = k
      · exfalso
        apply h.1
        rw [hp, List.mem_map]
        exact ⟨(k, b), hm', rfl⟩
      · rw [lookupA_cons, if_neg hp]
        exact ih h.2 hm'

theorem addMentionForm_forms (arch : Bool) (b : MBucket) (m : String) :
    (addMentionForm arch b m).forms = formStep arch b.forms m := by
  cases arch <;> rfl

theorem aggStep_lookup (agg : List (String × MBucket)) (e : NoteEntry)
    (k : String) :
    lookupA (aggStep agg e) k = bucketStep k (lookupA agg k) e := by
  unfold aggStep bucketStep
  by_cases htr : e.isTrashed = true
  · rw [if_pos htr, if_pos htr]
  · rw [if_neg htr, if_neg htr, mentions_fold_lookup e e.mentions agg [] k]
    cases hfc : firstCasing k e.mentions <;> simp

theorem aggFold_lookup :
    ∀ (E : List NoteEntry) (agg : List (String × MBucket)) (k : String),
    lookupA (E.foldl aggStep agg) k = E.foldl (bucketStep k) (lookupA agg k) := by
  intro E
  induction E with
  | nil => intro agg k; rfl
  | cons e E ih =>
    intro agg k
    rw [List.foldl_cons, List.foldl_cons, ih, aggStep_lookup]

theorem formsFoldFrom_cons (e : NoteEntry) (E : List NoteEntry) (key : String)
    (fs : List (String × Nat)) :
    formsFoldFrom (e :: E) key fs
      = formsFoldFrom E key
          (if e.isTrashed then fs
           else
             match firstCasing key e.mentions with
             | some m => formStep e.isArchived fs m
             | none => fs) := rfl

theorem bucketFold_forms :
    ∀ (E : List NoteEntry) (key : String) (b : Option MBucket),
    ((E.foldl (bucketStep key) b).getD ⟨[], 0, 0⟩).forms
      = formsFoldFrom E key ((b.getD ⟨[], 0, 0⟩).forms) := by
  intro E
  induction E with
  | nil => intro key b; rfl
  | cons e E ih =>
    intro key b
    rw [List.foldl_cons, formsFoldFrom_cons, ih]
    congr 1
    unfold bucketStep
    by_cases htr : e.isTrashed = true
    · rw [if_pos htr, if_pos htr]
    · rw [if_neg htr, if_neg htr]
      cases hfc : firstCasing key e.mentions
      · rfl
      · simp [addMentionForm_forms]

theorem formBump_lookup (fs : List (String × Nat)) (m f : String) :
    lookupA (formBump fs m) f
      = if f = m then some ((lookupA fs m).getD 0 + 1) else lookupA fs f := by
  induction fs with
  | nil =>
    by_cases hf : f = m
    · subst hf
      rw [if_pos rfl]
      rw [show formBump [] f = [(f, 1)] from rfl, lookupA_cons, if_pos rfl]
      rfl
    · rw [if_neg hf]
      rw [show formBump [] m = [(m, 1)] from rfl, lookupA_cons,
        if_neg (fun hh => hf hh.symm)]
  | cons p rest ih =>
    by_cases hp : p.1 = m
    · rw [show formBump (p :: rest) m = (p.1, p.2 + 1) :: rest by
        simp only [formBump]; rw [if_pos (by simp [hp])]]
      by_cases hf : f = m
      · subst hf
        rw [if_pos rfl, lookupA_cons, if_pos hp, lookupA_cons, if_pos hp]
        rfl
      · rw [if_neg hf, lookupA_cons, lookupA_cons]
        have hpf : ¬p.1 = f := fun hh => hf (hh.symm.trans hp)
        rw [if_neg hpf, if_neg hpf]
    · rw [show formBump (p :: rest) m = p :: formBump rest m by
        simp only [formBump]; rw [if_neg (by simp [hp])]]
      by_cases hf : f = m
      · subst hf
        rw [if_pos rfl, lookupA_cons, if_neg hp, lookupA_cons, if_neg hp, ih,
          if_pos rfl]
      · rw [if_neg hf, lookupA_cons, lookupA_cons]
        by_cases hpf : p.1 = f
        · rw [if_pos hpf, if_pos hpf]
        · rw [if_neg hpf, if_neg hpf, ih, if_neg hf]

theorem formBump_keys (fs : List (String × Nat)) (m : String) :
    (formBump fs m).map Prod.fst
      = if (lookupA fs m).isSome then fs.map Prod.fst
        else fs.map Prod.fst ++ [m] := by
  induction fs with
  | nil =>
    rw [show formBump [] m = [(m, 1)] from rfl]
    rw [if_neg (by simp [lookupA])]
    rfl
  | cons p rest ih =>
    by_cases hp : p.1 = m
    · rw [show formBump (p :: rest) m = (p.1, p.2 + 1) :: rest by
        simp only [formBump]; rw [if_pos (by simp [hp])]]
      rw [lookupA_cons, if_pos hp]
      simp
    · rw [show formBump (p :: rest) m = p :: formBump rest m by
        simp only [formBump]; rw [if_neg (by simp [hp])]]
      rw [lookupA_cons, if_neg hp]
      simp only [List.map_cons]
      rw [ih]
      by_cases hrest : (lookupA rest m).isSome = true
      · rw [if_pos hrest, if_pos hrest]
      · rw [if_neg hrest, if_neg hrest]
        rfl

theorem lookupA_append_single (fs : List (String × β)) (m : String) (v : β)
    (f : String) :
    lookupA (fs ++ [(m, v)]) f
      = match lookupA fs f with
        | some w => some w
        | none => if m = f then some v else none := by
  induction fs with
  | nil =>
    rw [List.nil_append, lookupA_cons]
    rw [show lookupA ([] : List (String × β)) f = none from rfl]
  | cons p rest ih =>
    rw [List.cons_append, lookupA_cons, lookupA_cons]
    by_cases hp : p.1 = f
    · rw [if_pos hp, if_pos hp]
    · rw [if_neg hp, if_neg hp, ih]

theorem formStep_lookup (arch : Bool) (fs : List (String × Nat)) (m f : String) :
    lookupA (formStep arch fs m) f
      = if f = m then
          some ((lookupA fs m).getD 0 + (if arch = true then 0 else 1))
        else lookupA fs f := by
  cases arch with
  | false =>
    rw [show formStep false fs m = formBump fs m from rfl, formBump_lookup]
    by_cases hf : f = m
    · rw [if_pos hf, if_pos hf]
      rfl
    · rw [if_neg hf, if_neg hf]
  | true =>
    rw [show formStep true fs m
        = if (lookupA fs m).isSome then fs else fs ++ [(m, 0)] from rfl]
    by_cases hsome : (lookupA fs m).isSome = true
    · rw [if_pos hsome]
      obtain ⟨w, hw⟩ := Option.isSome_iff_exists.mp hsome
      by_cases hf : f = m
      · subst hf
        rw [hw]
        simp
      · rw [if_neg hf]
    · rw [if_neg hsome, lookupA_append_single]
      have hnone : lookupA fs m = none := by
        cases hh : lookupA fs m
        · rfl
        · rw [hh] at hsome
          exact absurd rfl hsome
      by_cases hf : f = m
      · subst hf
        rw [hnone]
        simp
      · rw [if_neg hf]
        cases hff : lookupA fs f
        · rw [if_neg (fun hh => hf hh.symm)]
        · rfl

theorem formStep_keys (arch : Bool) (fs : List (String × Nat)) (m : String) :
    (formStep arch fs m).map Prod.fst
      = if (lookupA fs m).isSome then fs.map Prod.fst
        else fs.map Prod.fst ++ [m] := by
  cases arch with
  | false =>
    rw [show formStep false fs m = formBump fs m from rfl, formBump_keys]
  | true =>
    rw [show formStep true fs m
        = if (lookupA fs m).isSome then fs else fs ++ [(m, 0)] from rfl]
    by_cases hsome : (lookupA fs m).isSome = true
    · rw [if_pos hsome, if_pos hsome]
    · rw [if_neg hsome, if_neg hsome, List.map_append]
      rfl

theorem lookupA_isSome_iff (fs : List (String × β)) (m : String) :
    (lookupA fs m).isSome = true ↔ m ∈ fs.map Prod.fst := by
  induction fs with
  | nil => simp [lookupA]
  | cons p rest ih =>
    rw [lookupA_cons]
    by_cases hp : p.1 = m
    · simp [hp]
    · rw [if_neg hp]
      simp only [List.map_cons, List.mem_cons]
      rw [ih]
      constructor
      · exact Or.inr
      · rintro (h | h)
        · exact absurd h.symm hp
        · exact h

theorem dedupKF_congr :
    ∀ (l s1 s2 : List String), (∀ x, x ∈ s1 ↔ x ∈ s2) →
    dedupKF s1 l = dedupKF s2 l := by
  intro l
  induction l with
  | nil => intro s1 s2 h; rfl
  | cons y ys ih =>
    intro s1 s2 h
    rw [dedupKF, dedupKF]
    by_cases hy : y ∈ s1
    · rw [if_pos hy, if_pos ((h y).mp hy)]
      exact ih s1 s2 h
    · rw [if_neg hy, if_neg (fun hh => hy ((h y).mpr hh))]
      rw [ih (y :: s1) (y :: s2)
        (fun x => by rw [List.mem_cons, List.mem_cons, h x])]

theorem dedupKF_nodup : ∀ (l seen : List String), (dedupKF seen l).Nodup := by
  intro l
  induction l with
  | nil => intro seen; exact List.nodup_nil
  | cons y ys ih =>
    intro seen
    rw [dedupKF]
    by_cases hy : y ∈ seen
    · rw [if_pos hy]
      exact ih seen
    · rw [if_neg hy]
      refine List.nodup_cons.mpr ⟨?_, ih _⟩
      intro hmem
      exact ((dedupKF_mem ys (y :: seen) y).mp hmem).2 (List.mem_cons_self y seen)

theorem formsFold_lookup :
    ∀ (E : List NoteEntry) (key : String) (fs : List (String × Nat)) (f : String),
    lookupA (formsFoldFrom E key fs) f
      = if E.any (fun x => !x.isTrashed && (firstCasing key x.mentions == some f))
        then some ((lookupA fs f).getD 0 + countActiveFirstCasing E key f)
        else lookupA fs f := by
  intro E
  induction E with
  | nil =>
    intro key fs f
    rw [show formsFoldFrom [] key fs = fs from rfl]
    rw [if_neg (by simp)]
  | cons e E ih =>
    intro key fs f
    rw [formsFoldFrom_cons]
    have hany : (e :: E).any
          (fun x => !x.isTrashed && (firstCasing key x.mentions == some f))
        = ((!e.isTrashed && (firstCasing key e.mentions == some f))
            || E.any (fun x => !x.isTrashed
                && (firstCasing key x.mentions == some f))) := by
      rw [List.any_cons]
    have hcnt : countActiveFirstCasing (e :: E) key f
        = countActiveFirstCasing E key f
          + (if (isActive e && (firstCasing key e.mentions == some f)) = true
             then 1 else 0) := by
      unfold countActiveFirstCasing
      rw [List.countP_cons]
    by_cases htr : e.isTrashed = true
    · rw [if_pos htr, ih, hany, hcnt]
      have h1 : (!e.isTrashed && (firstCasing key e.mentions == some f))
          = false := by
        rw [htr]
        rfl
      have h2 : (isActive e && (firstCasing key e.mentions == some f))
          = false := by
        have hia : isActive e = false := by
          unfold isActive
          rw [htr]
          simp
        rw [hia]
        rfl
      rw [h1, h2]
      simp
    · have htr' : e.isTrashed = false := by
        cases hh : e.isTrashed
        · rfl
        · exact absurd hh htr
      rw [if_neg htr]
      cases hfc : firstCasing key e.mentions with
      | none =>
        simp only [hfc]
        rw [ih, hany, hcnt]
        have h1 : (!e.isTrashed && (firstCasing key e.mentions == some f))
            = false := by
          rw [hfc]
          simp
        have h2 : (isActive e && (firstCasing key e.mentions == some f))
            = false := by
          rw [hfc]
          simp
        rw [h1, h2]
        simp
      | some m =>
        simp only [hfc]
        rw [ih, hany, hcnt]
        by_cases hfm : f = m
        · subst hfm
          have h1 : (!e.isTrashed && (firstCasing key e.mentions == some f))
              = true := by
            rw [hfc, htr']
            simp
          have h2 : (isActive e && (firstCasing key e.mentions == some f))
              = isActive e := by
            rw [hfc]
            simp
          have hia : isActive e = !e.isArchived := by
            unfold isActive
            rw [htr']
            simp
          have hlk : lookupA (formStep e.isArchived fs f) f
              = some ((lookupA fs f).getD 0
                  + (if e.isArchived = true then 0 else 1)) := by
            rw [formStep_lookup, if_pos (rfl : f = f)]
          rw [h1, h2, hia, hlk]
          by_cases hE : E.any (fun x => !x.isTrashed
              && (firstCasing key x.mentions == some f)) = true
          · rw [if_pos hE]
            simp only [Bool.true_or, if_true]
            cases harch : e.isArchived with
            | true => simp
            | false => simp; omega
          · rw [if_neg hE]
            have hcnt0 : countActiveFirstCasing E key f = 0 := by
              unfold countActiveFirstCasing
              rw [List.countP_eq_zero]
              intro x hx hpx
              apply hE
              rw [List.any_eq_true]
              refine ⟨x, hx, ?_⟩
              simp only [Bool.and_eq_true] at hpx ⊢
              refine ⟨?_, hpx.2⟩
              have := hpx.1
              unfold isActive at this
              simp only [Bool.and_eq_true] at this
              exact this.2
            rw [hcnt0]
            simp only [Bool.true_or, if_true]
            cases harch : e.isArchived <;> simp
        · have hmf : (m == f) = false := by
            have : ¬m = f := fun hh => hfm hh.symm
            simp [this]
          have h1 : (!e.isTrashed && (firstCasing key e.mentions == some f))
              = false := by
            rw [hfc]
            simp [hmf]
          have h2 : (isActive e && (firstCasing key e.mentions == some f))
              = false := by
            rw [hfc]
            simp [hmf]
          have hlk : lookupA (formStep e.isArchived fs m) f = lookupA fs f := by
            rw [formStep_lookup, if_neg hfm]
          rw [h1, h2, hlk]
          simp

theorem formsFold_keys :
    ∀ (E : List NoteEntry) (key : String) (fs : List (String × Nat)),
    (formsFoldFrom E key fs).map Prod.fst
      = fs.map Prod.fst ++ dedupKF (fs.map Prod.fst) (mentionStream E key) := by
  intro E
  induction E with
  | nil =>
    intro key fs
    rw [show formsFoldFrom [] key fs = fs from rfl,
      show mentionStream [] key = [] from rfl, dedupKF, List.append_nil]
  | cons e E ih =>
    intro key fs
    rw [formsFoldFrom_cons]
    by_cases htr : e.isTrashed = true
    · rw [if_pos htr, ih]
      have hstream : mentionStream (e :: E) key = mentionStream E key := by
        simp [mentionStream, List.filterMap_cons, htr]
      rw [hstream]
    · have htr' : e.isTrashed = false := by
        cases hh : e.isTrashed
        · rfl
        · exact absurd hh htr
      rw [if_neg htr]
      cases hfc : firstCasing key e.mentions with
      | none =>
        simp only [hfc]
        rw [ih]
        have hstream : mentionStream (e :: E) key = mentionStream E key := by
          simp [mentionStream, List.filterMap_cons, htr', hfc]
        rw [hstream]
      | some m =>
        simp only [hfc]
        rw [ih]
        have hstream : mentionStream (e :: E) key = m :: mentionStream E key := by
          simp [mentionStream, List.filterMap_cons, htr', hfc]
        rw [hstream, dedupKF, formStep_keys]
        by_cases hm : m ∈ fs.map Prod.fst
        · rw [if_pos hm, if_pos ((lookupA_isSome_iff fs m).mpr hm)]
        · rw [if_neg hm,
            if_neg (fun hh => hm ((lookupA_isSome_iff fs m).mp hh))]
          rw [dedupKF_congr (mentionStream E key) (m :: fs.map Prod.fst)
            (fs.map Prod.fst ++ [m])
            (fun x => by
              rw [List.mem_append, List.mem_cons, List.mem_singleton]
              tauto)]
          rw [List.append_assoc]
          rfl

theorem formBump_ne_nil (fs : List (String × Nat)) (m : String) :
    formBump fs m ≠ [] := by
  cases fs with
  | nil => simp [formBump]
  | cons p rest =>
    simp only [formBump]
    by_cases hp : (p.1 == m) = true
    · rw [if_pos hp]
      simp
    · rw [if_neg hp]
      simp

theorem formStep_ne_nil (arch : Bool) (fs : List (String × Nat)) (m : String) :
    formStep arch fs m ≠ [] := by
  cases arch with
  | false =>
    rw [show formStep false fs m = formBump fs m from rfl]
    exact formBump_ne_nil fs m
  | true =>
    rw [show formStep true fs m
        = if (lookupA fs m).isSome then fs else fs ++ [(m, 0)] from rfl]
    by_cases hsome : (lookupA fs m).isSome = true
    · rw [if_pos hsome]
      cases fs with
      | nil => simp [lookupA] at hsome
      | cons p rest => simp
    · rw [if_neg hsome]
      simp

theorem bucketFold_ne_nil :
    ∀ (E : List NoteEntry) (key : String) (b0 : Option MBucket),
    (∀ b, b0 = some b → b.forms ≠ []) →
    ∀ b, E.foldl (bucketStep key) b0 = some b → b.forms ≠ [] := by
  intro E
  induction E with
  | nil => intro key b0 h b hb; exact h b hb
  | cons e E ih =>
    intro key b0 h b hb
    rw [List.foldl_cons] at hb
    refine ih key _ ?_ b hb
    intro b' hb'
    unfold bucketStep at hb'
    by_cases htr : e.isTrashed = true
    · rw [if_pos htr] at hb'
      exact h b' hb'
    · rw [if_neg htr] at hb'
      cases hfc : firstCasing key e.mentions with
      | none =>
        rw [hfc] at hb'
        exact h b' hb'
      | some m =>
        rw [hfc] at hb'
        injection hb' with hb''
        rw [← hb'', addMentionForm_forms]
        exact formStep_ne_nil _ _ _

theorem canonFold_ge :
    ∀ (l : List (String × Nat)) (s : String) (v : Int),
    (∀ q ∈ l, (q.2 : Int) ≤ v) →
    (l.foldl
        (fun (acc : String × Int) p =>
          if (p.2 : Int) > acc.2 then (p.1, (p.2 : Int)) else acc)
        (s, v)).1 = s := by
  intro l
  induction l with
  | nil => intro s v h; rfl
  | cons q rest ih =>
    intro s v h
    simp only [List.foldl_cons]
    rw [if_neg (not_lt.mpr (h q (List.mem_cons_self q rest)))]
    exact ih s v (fun r hr => h r (List.mem_cons_of_mem q hr))

theorem canonFold_lt :
    ∀ (l : List (String × Nat)) (s : String) (v : Int),
    (∃ q ∈ l, v < (q.2 : Int)) →
    (l.foldl
        (fun (acc : String × Int) p =>
          if (p.2 : Int) > acc.2 then (p.1, (p.2 : Int)) else acc)
        (s, v)).1 = firstArgmax l := by
  intro l
  induction l with
  | nil =>
    intro s v h
    exact absurd h (by simp)
  | cons a rest ih =>
    intro s v h
    simp only [List.foldl_cons]
    rw [firstArgmax]
    by_cases ha : (a.2 : Int) > v
    · rw [if_pos ha]
      by_cases hall : ∀ r ∈ rest, r.2 ≤ a.2
      · rw [if_pos (by
          rw [List.all_eq_true]
          intro r hr
          exact decide_eq_true (hall r hr))]
        exact canonFold_ge rest a.1 (a.2 : Int)
          (fun r hr => by exact_mod_cast hall r hr)
      · push_neg at hall
        obtain ⟨r, hr, hra⟩ := hall
        rw [if_neg (by
          intro hcontra
          rw [List.all_eq_true] at hcontra
          exact absurd (of_decide_eq_true (hcontra r hr)) (not_le.mpr hra))]
        exact ih a.1 (a.2 : Int) ⟨r, hr, by exact_mod_cast hra⟩
    · rw [if_neg ha]
      obtain ⟨q, hq, hvq⟩ := h
      rcases List.mem_cons.mp hq with rfl | hq'
      · exact absurd hvq ha
      · have haq : a.2 < q.2 := by
          have h1 : (a.2 : Int) ≤ v := not_lt.mp ha
          have h2 : (a.2 : Int) < (q.2 : Int) := lt_of_le_of_lt h1 hvq
          exact_mod_cast h2
        rw [if_neg (by
          intro hcontra
          rw [List.all_eq_true] at hcontra
          exact absurd (of_decide_eq_true (hcontra q hq'))
            (not_le.mpr haq))]
        exact ih s v ⟨q, hq', hvq⟩

theorem canonicalOf_eq_firstArgmax (l : List (String × Nat)) (h : l ≠ []) :
    canonicalOf l = firstArgmax l := by
  unfold canonicalOf
  cases l with
  | nil => exact absurd rfl h
  | cons a rest =>
    exact canonFold_lt (a :: rest) "" (-1)
      ⟨a, List.mem_cons_self a rest, by omega⟩

theorem get_congr (l l2 : List α) (h : l = l2) (n : Nat) (hn : n < l.length)
    (hn2 : n < l2.length) : l.get ⟨n, hn⟩ = l2.get ⟨n, hn2⟩ := by
  subst h
  rfl

theorem get_map_fst (l : List (String × Nat)) (n : Nat)
    (hn : n < (l.map Prod.fst).length) (hn2 : n < l.length) :
    (l.map Prod.fst).get ⟨n, hn⟩ = (l.get ⟨n, hn2⟩).1 := by
  induction l generalizing n with
  | nil => cases hn2
  | cons p rest ih =>
    cases n with
    | zero => rfl
    | succ k =>
      exact ih k (by simpa using Nat.lt_of_succ_lt_succ hn)
        (Nat.lt_of_succ_lt_succ hn2)

theorem firstArgmax_spec :
    ∀ (l : List (String × Nat)), l ≠ [] →
    ∃ i : Fin l.length,
      firstArgmax l = (l.get i).1
      ∧ (∀ j : Fin l.length, (l.get j).2 ≤ (l.get i).2)
      ∧ ∀ j : Fin l.length, j.val < i.val → (l.get j).2 < (l.get i).2 := by
  intro l
  induction l with
  | nil => intro h; exact absurd rfl h
  | cons a rest ih =>
    intro _
    by_cases hall : ∀ r ∈ rest, r.2 ≤ a.2
    · refine ⟨⟨0, Nat.succ_pos _⟩, ?_, ?_, ?_⟩
      · rw [firstArgmax, if_pos (by
          rw [List.all_eq_true]
          intro r hr
          exact decide_eq_true (hall r hr))]
        rfl
      · intro j
        rcases j with ⟨jv, hjv⟩
        cases jv with
        | zero => exact le_refl _
        | succ k =>
          exact hall (rest.get ⟨k, Nat.lt_of_succ_lt_succ hjv⟩)
            (List.get_mem rest k (Nat.lt_of_succ_lt_succ hjv))
      · intro j hj
        exact absurd hj (Nat.not_lt_zero _)
    · push_neg at hall
      obtain ⟨r, hr, hra⟩ := hall
      have hrest : rest ≠ [] := by
        intro hh
        rw [hh] at hr
        cases hr
      obtain ⟨iR, hi1, hi2, hi3⟩ := ih hrest
      have hmax_r : r.2 ≤ (rest.get iR).2 := by
        obtain ⟨jr, hjr⟩ := List.get_of_mem hr
        rw [← hjr]
        exact hi2 jr
      have hnall : ¬(rest.all (fun q => q.2 ≤ a.2) = true) := by
        intro hcontra
        rw [List.all_eq_true] at hcontra
        exact absurd (of_decide_eq_true (hcontra r hr)) (not_le.mpr hra)
      refine ⟨⟨iR.val + 1, Nat.succ_lt_succ iR.isLt⟩, ?_, ?_, ?_⟩
      · rw [firstArgmax, if_neg hnall]
        exact hi1
      · intro j
        rcases j with ⟨jv, hjv⟩
        cases jv with
        | zero => exact le_of_lt (lt_of_lt_of_le hra hmax_r)
        | succ k => exact hi2 ⟨k, Nat.lt_of_succ_lt_succ hjv⟩
      · intro j hj
        rcases j with ⟨jv, hjv⟩
        cases jv with
        | zero => exact lt_of_lt_of_le hra hmax_r
        | succ k =>
          exact hi3 ⟨k, Nat.lt_of_succ_lt_succ hjv⟩
            (Nat.lt_of_succ_lt_succ hj)

/-- **C6, amended.** `getMentionsRanked` groups mentions
case-insensitively; each group's count is the number of distinct active
(non-archived, non-trashed) entries containing any casing, and the group
is flagged archive-only exactly when that count is 0. Canonical form:
each non-trashed entry (archived included) registers only the first
casing of the group it lists; the distinct casings are ordered by first
registration across entries in index order; a casing's score is the
number of active entries whose first-listed casing it is, an archived
entry registering its casing without scoring it; the canonical form is
the earliest-registered casing with the maximal score, so a score tie is
won by the casing registered first — even when its first registration
came from an archived entry. In particular `@PersonName` first-listed in
3 active notes and `@personname` in 1 yield the single group
`⟨@PersonName, 4⟩`; and with an archived note registering `@AB` before
active notes with `@ab` and `@AB`, the 1–1 score tie is won by `@AB`,
the casing the archived note registered first. -/
theorem mentionsRanked_amended :
    (∀ (E : List NoteEntry), ∀ g ∈ getMentionsRanked E,
        ∃ key : String,
          (g.archiveOnly = true ↔ g.count = 0)
          ∧ g.count = countActive E key
          ∧ (∀ c ∈ regOrder E key, lowerS c = key)
          ∧ ∃ i : Fin (regOrder E key).length,
              g.mention = (regOrder E key).get i
              ∧ (∀ j : Fin (regOrder E key).length,
                  countActiveFirstCasing E key ((regOrder E key).get j)
                    ≤ countActiveFirstCasing E key ((regOrder E key).get i))
              ∧ ∀ j : Fin (regOrder E key).length, j.val < i.val →
                  countActiveFirstCasing E key ((regOrder E key).get j)
                    < countActiveFirstCasing E key ((regOrder E key).get i))
    ∧ getMentionsRanked
        [⟨"p1.txt", "p1", "N/p1.txt", false, false, [], ["@PersonName"], []⟩,
         ⟨"p2.txt", "p2", "N/p2.txt", false, false, [], ["@PersonName"], []⟩,
         ⟨"p3.txt", "p3", "N/p3.txt", false, false, [], ["@PersonName"], []⟩,
         ⟨"p4.txt", "p4", "N/p4.txt", false, false, [], ["@personname"], []⟩]
      = [⟨"@PersonName", 4, false⟩]
    ∧ getMentionsRanked
        [⟨"t1.txt", "t1", "N/t1.txt", true, false, [], ["@AB"], []⟩,
         ⟨"t2.txt", "t2", "N/t2.txt", false, false, [], ["@ab"], []⟩,
         ⟨"t3.txt", "t3", "N/t3.txt", false, false, [], ["@AB"], []⟩]
      = [⟨"@AB", 2, false⟩] := by
  refine ⟨?_, by decide, by decide⟩
  intro E g hg
  unfold getMentionsRanked at hg
  rw [List.mem_insertionSort, List.mem_map] at hg
  obtain ⟨p, hp, hgp⟩ := hg
  subst hgp
  have hlook : lookupA (aggMentions E) p.1 = some p.2 :=
    mem_lookupA_of_nodup (nodup_keys_aggMentions E) (by simpa using hp)
  refine ⟨p.1, by simp, ?_, ?_, ?_⟩
  · have hfold := aggMentions_fold_active E [] p.1
    rw [show (E.foldl aggStep []) = aggMentions E from rfl, hlook] at hfold
    simp only [Option.map_some'] at hfold
    have hbase : (lookupA ([] : List (String × MBucket)) p.1).map (·.active)
        = none := rfl
    rw [hbase] at hfold
    by_cases hany : E.any (fun e => !e.isTrashed && hasMentionKey p.1 e) = true
    · rw [if_pos hany] at hfold
      injection hfold
    · rw [if_neg hany] at hfold
      cases hfold
  · intro c hc
    have hcs := ((dedupKF_mem (mentionStream E p.1) [] c).mp hc).1
    unfold mentionStream at hcs
    rw [List.mem_filterMap] at hcs
    obtain ⟨e, he, hce⟩ := hcs
    by_cases htr : e.isTrashed = true
    · rw [if_pos htr] at hce
      cases hce
    · rw [if_neg htr] at hce
      unfold firstCasing at hce
      have hcp := List.find?_some hce
      simp only [beq_iff_eq] at hcp
      exact hcp
  · have hfoldB : E.foldl (bucketStep p.1) none = some p.2 := by
      have h0 := aggFold_lookup E [] p.1
      rw [show lookupA ([] : List (String × MBucket)) p.1 = none from rfl] at h0
      rw [show (E.foldl aggStep []) = aggMentions E from rfl] at h0
      rw [hlook] at h0
      exact h0.symm
    have hforms : p.2.forms = formsOf E p.1 := by
      have h1 := bucketFold_forms E p.1 none
      rw [hfoldB] at h1
      exact h1
    have hkeys : (formsOf E p.1).map Prod.fst = regOrder E p.1 := by
      unfold formsOf regOrder
      rw [formsFold_keys]
      rfl
    have hnodupK : ((formsOf E p.1).map Prod.fst).Nodup := by
      rw [hkeys]
      unfold regOrder
      exact dedupKF_nodup (mentionStream E p.1) []
    have hvals : ∀ q ∈ p.2.forms, q.2 = countActiveFirstCasing E p.1 q.1 := by
      intro q hq
      rw [hforms] at hq
      have hql : lookupA (formsOf E p.1) q.1 = some q.2 := by
        refine mem_lookupA_of_nodup hnodupK ?_
        rcases q with ⟨qa, qb⟩
        exact hq
      have hfl := formsFold_lookup E p.1 [] q.1
      rw [show formsFoldFrom E p.1 [] = formsOf E p.1 from rfl, hql] at hfl
      by_cases hreg2 : E.any (fun x => !x.isTrashed
          && (firstCasing p.1 x.mentions == some q.1)) = true
      · rw [if_pos hreg2] at hfl
        injection hfl with h2
        rw [h2, show lookupA ([] : List (String × Nat)) q.1 = none from rfl]
        simp
      · rw [if_neg hreg2,
          show lookupA ([] : List (String × Nat)) q.1 = none from rfl] at hfl
        cases hfl
    have hne : p.2.forms ≠ [] :=
      bucketFold_ne_nil E p.1 none (fun b hb => nomatch hb) p.2 hfoldB
    obtain ⟨i, hi1, hi2, hi3⟩ := firstArgmax_spec p.2.forms hne
    have hlen : (regOrder E p.1).length = p.2.forms.length := by
      rw [← hkeys, List.length_map, ← hforms]
    have hlt : i.val < (regOrder E p.1).length := by
      rw [hlen]
      exact i.isLt
    have hreg : regOrder E p.1 = p.2.forms.map Prod.fst := by
      rw [hforms, hkeys]
    have hget : ∀ (n : Nat) (hn : n < (regOrder E p.1).length)
        (hn2 : n < p.2.forms.length),
        (regOrder E p.1).get ⟨n, hn⟩ = (p.2.forms.get ⟨n, hn2⟩).1 := by
      intro n hn hn2
      rw [get_congr (regOrder E p.1) (p.2.forms.map Prod.fst) hreg n hn
        (by rw [List.length_map]; exact hn2)]
      exact get_map_fst p.2.forms n _ hn2
    refine ⟨⟨i.val, hlt⟩, ?_, ?_, ?_⟩
    · show canonicalOf p.2.forms = (regOrder E p.1).get ⟨i.val, hlt⟩
      rw [hget i.val hlt i.isLt, canonicalOf_eq_firstArgmax p.2.forms hne]
      exact hi1
    · intro j
      rcases j with ⟨jv, hjv⟩
      have hj2 : jv < p.2.forms.length := by
        rw [← hlen]
        exact hjv
      rw [hget jv hjv hj2, hget i.val hlt i.isLt]
      rw [← hvals (p.2.forms.get ⟨jv, hj2⟩) (List.get_mem _ _ _),
        ← hvals (p.2.forms.get ⟨i.val, i.isLt⟩) (List.get_mem _ _ _)]
      exact hi2 ⟨jv, hj2⟩
    · intro j hj
      rcases j with ⟨jv, hjv⟩
      have hj2 : jv < p.2.forms.length := by
        rw [← hlen]
        exact hjv
      rw [hget jv hjv hj2, hget i.val hlt i.isLt]
      rw [← hvals (p.2.forms.get ⟨jv, hj2⟩) (List.get_mem _ _ _),
        ← hvals (p.2.forms.get ⟨i.val, i.isLt⟩) (List.get_mem _ _ _)]
      exact hi3 ⟨jv, hj2⟩ hj

theorem mentionsRanked_amended_witness :
    ∃ key : String,
      (((⟨"@AB", 2, false⟩ : MentionGroup).archiveOnly = true
          ↔ (⟨"@AB", 2, false⟩ : MentionGroup).count = 0)
        ∧ (⟨"@AB", 2, false⟩ : MentionGroup).count
            = countActive
                [⟨"t1.txt", "t1", "N/t1.txt", true, false, [], ["@AB"], []⟩,
                 ⟨"t2.txt", "t2", "N/t2.txt", false, false, [], ["@ab"], []⟩,
                 ⟨"t3.txt", "t3", "N/t3.txt", false, false, [], ["@AB"], []⟩]
                key
        ∧ (∀ c ∈ regOrder
              [⟨"t1.txt", "t1", "N/t1.txt", true, false, [], ["@AB"], []⟩,
               ⟨"t2.txt", "t2", "N/t2.txt", false, false, [], ["@ab"], []⟩,
               ⟨"t3.txt", "t3", "N/t3.txt", false, false, [], ["@AB"], []⟩] key,
            lowerS c = key)
        ∧ ∃ i : Fin (regOrder
              [⟨"t1.txt", "t1", "N/t1.txt", true, false, [], ["@AB"], []⟩,
               ⟨"t2.txt", "t2", "N/t2.txt", false, false, [], ["@ab"], []⟩,
               ⟨"t3.txt", "t3", "N/t3.txt", false, false, [], ["@AB"], []⟩]
              key).length,
            (⟨"@AB", 2, false⟩ : MentionGroup).mention
              = (regOrder
                  [⟨"t1.txt", "t1", "N/t1.txt", true, false, [], ["@AB"], []⟩,
                   ⟨"t2.txt", "t2", "N/t2.txt", false, false, [], ["@ab"], []⟩,
                   ⟨"t3.txt", "t3", "N/t3.txt", false, false, [], ["@AB"], []⟩]
                  key).get i
            ∧ (∀ j : Fin (regOrder
                  [⟨"t1.txt", "t1", "N/t1.txt", true, false, [], ["@AB"], []⟩,
                   ⟨"t2.txt", "t2", "N/t2.txt", false, false, [], ["@ab"], []⟩,
                   ⟨"t3.txt", "t3", "N/t3.txt", false, false, [], ["@AB"], []⟩]
                  key).length,
                countActiveFirstCasing
                  [⟨"t1.txt", "t1", "N/t1.txt", true, false, [], ["@AB"], []⟩,
                   ⟨"t2.txt", "t2", "N/t2.txt", false, false, [], ["@ab"], []⟩,
                   ⟨"t3.txt", "t3", "N/t3.txt", false, false, [], ["@AB"], []⟩]
                  key
                  ((regOrder
                    [⟨"t1.txt", "t1", "N/t1.txt", true, false, [], ["@AB"], []⟩,
                     ⟨"t2.txt", "t2", "N/t2.txt", false, false, [], ["@ab"], []⟩,
                     ⟨"t3.txt", "t3", "N/t3.txt", false, false, [], ["@AB"], []⟩]
                    key).get j)
                  ≤ countActiveFirstCasing
                      [⟨"t1.txt", "t1", "N/t1.txt", true, false, [], ["@AB"],
                          []⟩,
                       ⟨"t2.txt", "t2", "N/t2.txt", false, false, [], ["@ab"],
                          []⟩,
                       ⟨"t3.txt", "t3", "N/t3.txt", false, false, [], ["@AB"],
                          []⟩]
                      key
                      ((regOrder
                        [⟨"t1.txt", "t1", "N/t1.txt", true, false, [], ["@AB"],
                            []⟩,
                         ⟨"t2.txt", "t2", "N/t2.txt", false, false, [], ["@ab"],
                            []⟩,
                         ⟨"t3.txt", "t3", "N/t3.txt", false, false, [], ["@AB"],
                            []⟩]
                        key).get i))
            ∧ ∀ j : Fin (regOrder
                  [⟨"t1.txt", "t1", "N/t1.txt", true, false, [], ["@AB"], []⟩,
                   ⟨"t2.txt", "t2", "N/t2.txt", false, false, [], ["@ab"], []⟩,
                   ⟨"t3.txt", "t3", "N/t3.txt", false, false, [], ["@AB"], []⟩]
                  key).length,
                j.val < i.val →
                countActiveFirstCasing
                  [⟨"t1.txt", "t1", "N/t1.txt", true, false, [], ["@AB"], []⟩,
                   ⟨"t2.txt", "t2", "N/t2.txt", false, false, [], ["@ab"], []⟩,
                   ⟨"t3.txt", "t3", "N/t3.txt", false, false, [], ["@AB"], []⟩]
                  key
                  ((regOrder
                    [⟨"t1.txt", "t1", "N/t1.txt", true, false, [], ["@AB"], []⟩,
                     ⟨"t2.txt", "t2", "N/t2.txt", false, false, [], ["@ab"], []⟩,
                     ⟨"t3.txt", "t3", "N/t3.txt", false, false, [], ["@AB"], []⟩]
                    key).get j)
                  < countActiveFirstCasing
                      [⟨"t1.txt", "t1", "N/t1.txt", true, false, [], ["@AB"],
                          []⟩,
                       ⟨"t2.txt", "t2", "N/t2.txt", false, false, [], ["@ab"],
                          []⟩,
                       ⟨"t3.txt", "t3", "N/t3.txt", false, false, [], ["@AB"],
                          []⟩]
                      key
                      ((regOrder
                        [⟨"t1.txt", "t1", "N/t1.txt", true, false, [], ["@AB"],
                            []⟩,
                         ⟨"t2.txt", "t2", "N/t2.txt", false, false, [], ["@ab"],
                            []⟩,
                         ⟨"t3.txt", "t3", "N/t3.txt", false, false, [], ["@AB"],
                            []⟩]
                        key).get i)) :=
  mentionsRanked_amended.1
    [⟨"t1.txt", "t1", "N/t1.txt", true, false, [], ["@AB"], []⟩,
     ⟨"t2.txt", "t2", "N/t2.txt", false, false, [], ["@ab"], []⟩,
     ⟨"t3.txt", "t3", "N/t3.txt", false, false, [], ["@AB"], []⟩]
    ⟨"@AB", 2, false⟩ (by decide)

/-- **C8.** For an index with distinct paths: if note `A` contains a wiki
link whose target resolves (case-insensitively) to note `B`'s filename
key or title key, then `getBacklinks` on `B`'s path includes `A`; and
after re-parsing `A` via `updateEntry` with content whose parsed links no
longer reference `B`, `getBacklinks` on `B`'s path contains no entry at
`A`'s path. -/
theorem backlinks_correct (E : List NoteEntry) (A B : NoteEntry) (t : String)
    (hU : E.Pairwise (fun a b => a.relPath ≠ b.relPath))
    (hA : A ∈ E) (hB : B ∈ E) (hAB : A.relPath ≠ B.relPath)
    (ht : t ∈ A.outgoingLinks)
    (hk : lowerS t = linkKey B.filename ∨ lowerS t = lowerS B.title) :
    A ∈ getBacklinks (rebuildMaps E) B.relPath
    ∧ ∀ content : String,
        (∀ l ∈ (parseNoteContent content).outgoingLinks,
            lowerS l ≠ linkKey B.filename ∧ lowerS l ≠ lowerS B.title) →
        ∀ e ∈ getBacklinks (updateEntry (rebuildMaps E) A.relPath content) B.relPath,
          e.relPath ≠ A.relPath := by
  have hlookB : lookupA (rebuildMaps E).byRelPath B.relPath = some B := by
    rw [byRelPath_rebuild, findLast_unique hU hB]
  have hlookA : lookupA (rebuildMaps E).byRelPath A.relPath = some A := by
    rw [byRelPath_rebuild, findLast_unique hU hA]
  have hkeymem : lowerS t ∈
      linkKey B.filename
        :: (if lowerS B.title = linkKey B.filename then [] else [lowerS B.title]) := by
    rcases hk with hk | hk
    · rw [hk]; exact List.mem_cons_self _ _
    · by_cases hktt : lowerS B.title = linkKey B.filename
      · rw [hk, hktt]; simp
      · rw [if_neg hktt, hk]; simp
  constructor
  · unfold getBacklinks
    rw [hlookB]
    simp only
    rw [List.mem_filterMap]
    refine ⟨A.relPath, ?_, hlookA⟩
    rw [dedupKF_mem]
    refine ⟨?_, by simp⟩
    rw [mem_flatM]
    refine ⟨lowerS t, hkeymem, ?_⟩
    rw [List.mem_filter]
    constructor
    · rw [backlink_bucket_mem]
      exact ⟨A, hA, rfl, t, ht, rfl⟩
    · simp [hAB]
  · intro content hcontent e he heq
    have hupd : updateEntry (rebuildMaps E) A.relPath content
        = rebuildMaps (E.map (fun x =>
            if x.relPath == A.relPath then reparseEntry x content else x)) := by
      unfold updateEntry
      rw [hlookA, entries_rebuildMaps]
    rw [hupd] at he
    set f : NoteEntry → NoteEntry :=
      fun x => if x.relPath == A.relPath then reparseEntry x content else x with hf
    have hfpath : ∀ x : NoteEntry, (f x).relPath = x.relPath := by
      intro x
      rw [hf]
      by_cases hx : (x.relPath == A.relPath) = true <;>
        simp [hx, relPath_reparse]
    have hU' : (E.map f).Pairwise (fun a b => a.relPath ≠ b.relPath) := by
      rw [List.pairwise_map]
      refine hU.imp ?_
      intro a b hab
      rw [hfpath a, hfpath b]
      exact hab
    have hfB : f B = B := by
      rw [hf]
      have : (B.relPath == A.relPath) = false := by
        rw [beq_eq_false_iff_ne]
        exact fun h => hAB h.symm
      simp [this]
    have hB' : B ∈ E.map f := by
      rw [List.mem_map]
      exact ⟨B, hB, hfB⟩
    have hlookB' : lookupA (rebuildMaps (E.map f)).byRelPath B.relPath = some B := by
      rw [byRelPath_rebuild, findLast_unique hU' hB']
    unfold getBacklinks at he
    rw [hlookB'] at he
    simp only at he
    rw [List.mem_filterMap] at he
    obtain ⟨p, hp, hlook⟩ := he
    have hep : e.relPath = p := by
      rw [byRelPath_rebuild] at hlook
      cases hfl : findLastEntry p (E.map f) with
      | some r =>
        rw [hfl] at hlook
        injection hlook with h'
        rw [h'] at hfl
        exact findLast_relPath hfl
      | none => rw [hfl] at hlook; cases hlook
    have hpA : p = A.relPath := hep ▸ heq
    rw [dedupKF_mem] at hp
    obtain ⟨hp, _⟩ := hp
    rw [mem_flatM] at hp
    obtain ⟨k, hkmem, hpk⟩ := hp
    rw [List.mem_filter] at hpk
    obtain ⟨hpk, _⟩ := hpk
    rw [backlink_bucket_mem] at hpk
    obtain ⟨g, hg, hgp, l, hl, hlk⟩ := hpk
    rw [List.mem_map] at hg
    obtain ⟨x, hx, rfl⟩ := hg
    have hxA : (x.relPath == A.relPath) = true := by
      rw [beq_iff_eq]
      rw [hfpath x] at hgp
      exact hgp.trans hpA
    have hfx : f x = reparseEntry x content := by
      rw [hf]
      simp [hxA]
    rw [hfx, outgoingLinks_reparse] at hl
    have hkB : k = linkKey B.filename ∨ k = lowerS B.title := by
      rcases List.mem_cons.mp hkmem with h | h
      · exact Or.inl h
      · by_cases hktt : lowerS B.title = linkKey B.filename
        · rw [if_pos hktt] at h; cases h
        · rw [if_neg hktt] at h
          rcases List.mem_singleton.mp h with rfl
          exact Or.inr rfl
    obtain ⟨hn1, hn2⟩ := hcontent l hl
    rcases hkB with rfl | rfl
    · exact hn1 hlk
    · exact hn2 hlk

/-- Witness for C8: the two-note scenario `A.txt` (links `[[Beta]]`) and
`B.txt` titled `Beta`; removing the link line via `updateEntry` removes
the backlink. -/
theorem backlinks_correct_witness :
    (⟨"A.txt", "Alpha", "N/A.txt", false, false, ["Beta"], [], []⟩ : NoteEntry) ∈
        getBacklinks (rebuildMaps
          [⟨"A.txt", "Alpha", "N/A.txt", false, false, ["Beta"], [], []⟩,
           ⟨"B.txt", "Beta", "N/B.txt", false, false, [], [], []⟩]) "N/B.txt"
    ∧ ∀ e ∈ getBacklinks (updateEntry (rebuildMaps
          [⟨"A.txt", "Alpha", "N/A.txt", false, false, ["Beta"], [], []⟩,
           ⟨"B.txt", "Beta", "N/B.txt", false, false, [], [], []⟩])
          "N/A.txt" "# Alpha\nhello") "N/B.txt",
        e.relPath ≠ "N/A.txt" := by
  have h := backlinks_correct
    [⟨"A.txt", "Alpha", "N/A.txt", false, false, ["Beta"], [], []⟩,
     ⟨"B.txt", "Beta", "N/B.txt", false, false, [], [], []⟩]
    ⟨"A.txt", "Alpha", "N/A.txt", false, false, ["Beta"], [], []⟩
    ⟨"B.txt", "Beta", "N/B.txt", false, false, [], [], []⟩
    "Beta"
    (by decide) (by decide) (by decide) (by decide) (by decide) (by decide)
  exact ⟨h.1, h.2 "# Alpha\nhello" (by decide)⟩

/-- **C9.** The per-line mention match is word-boundary-anchored: a
search for `@PersonName` does not match `email@PersonName.com` but does
match `Ask @PersonName about X`; on a multi-line file the scan returns
exactly the matching lines (1-indexed), and a line is flagged done
exactly when it begins with a done (`[x]`) or cancelled (`[-]`) task
marker form. -/
theorem mention_search_word_boundary :
    mentionLineTest ("@PersonName").data ("email@PersonName.com").data = false
    ∧ mentionLineTest ("@PersonName").data ("Ask @PersonName about X").data = true
    ∧ searchLinesModel "@PersonName"
        "email@PersonName.com\nAsk @PersonName about X\n- [x] Ask @PersonName\n- [-] ask @personname now"
      = [(2, ("Ask @PersonName about X").data, false),
         (3, ("- [x] Ask @PersonName").data, true),
         (4, ("- [-] ask @personname now").data, true)]
    ∧ ∀ line : List Char, isDoneLine line = true ↔ beginsWithDoneForm line := by
  refine ⟨by decide, by decide, by decide, ?_⟩
  intro line
  constructor
  · intro h
    unfold isDoneLine at h
    split at h
    case _ c m tail heq =>
      refine ⟨line.takeWhile jsSpace, c, m, tail, ?_, ?_, ?_, ?_⟩
      · rw [← heq]
        exact (List.takeWhile_append_dropWhile (p := jsSpace) (l := line)).symm
      · exact fun x hx => List.mem_takeWhile_imp hx
      · rcases Bool.and_eq_true .. |>.mp h with ⟨h1, _⟩
        rcases Bool.or_eq_true .. |>.mp h1 with h1 | h1 <;>
          simp only [beq_iff_eq] at h1 <;> [exact Or.inl h1; exact Or.inr h1]
      · rcases Bool.and_eq_true .. |>.mp h with ⟨_, h2⟩
        rcases Bool.or_eq_true .. |>.mp h2 with h2 | h2 <;>
          simp only [beq_iff_eq] at h2 <;> [exact Or.inl h2; exact Or.inr h2]
    case _ => exact absurd h (by simp)
  · rintro ⟨ws, c, m, rest, rfl, hws, hc, hm⟩
    have hcns : jsSpace c = false := by rcases hc with rfl | rfl <;> decide
    unfold isDoneLine
    rw [dropWhile_all_cons ws c _ hws hcns]
    rcases hc with rfl | rfl <;> rcases hm with rfl | rfl <;> rfl

/-- **C10.** For a path not present in the index, `updateEntry` leaves the
entire index state (entries and all derived maps) unchanged — a silent
no-op rather than an insertion or an error — whereas `addEntry` does
register the new path. -/
theorem updateEntry_missing_noop (st : IndexState) (relPath content : String)
    (h : lookupA st.byRelPath relPath = none) :
    updateEntry st relPath content = st
    ∧ ∀ filename : String,
        relPath ∈ (addEntry st relPath filename content).entries.map (·.relPath) := by
  constructor
  · unfold updateEntry
    rw [h]
  · intro filename
    unfold addEntry
    rw [entries_rebuildMaps]
    simp

theorem chIs_lt {t : List Char} {i : Nat} {c : Char} (h : chIs t i c = true) :
    i < t.length := by
  unfold chIs at h
  rw [beq_iff_eq] at h
  exact (List.getElem?_eq_some_iff.mp h).1

theorem pairwise_of_norep {l : List Deco}
    (h : ∀ d ∈ l, isReplaceK d.kind = false) :
    l.Pairwise (fun a b =>
      ¬(isReplaceK a.kind = true ∧ isReplaceK b.kind = true)) := by
  refine List.pairwise_of_forall_mem_list ?_
  intro a ha b _ hab
  rw [h a ha] at hab
  exact absurd hab.1 (by simp)

theorem norep_append_pairwise {l1 l2 : List Deco}
    (h1 : ∀ d ∈ l1, isReplaceK d.kind = false)
    (h2 : l2.Pairwise (fun a b =>
      ¬(isReplaceK a.kind = true ∧ isReplaceK b.kind = true))) :
    (l1 ++ l2).Pairwise (fun a b =>
      ¬(isReplaceK a.kind = true ∧ isReplaceK b.kind = true)) := by
  rw [List.pairwise_append]
  refine ⟨pairwise_of_norep h1, h2, ?_⟩
  intro a ha b _ hab
  rw [h1 a ha] at hab
  exact absurd hab.1 (by simp)

theorem pairwise_of_len_le_one {l : List Deco} {R : Deco → Deco → Prop}
    (h : l.length ≤ 1) : l.Pairwise R := by
  cases l with
  | nil => exact List.Pairwise.nil
  | cons x xs =>
    cases xs with
    | nil => simp
    | cons y ys => simp at h

theorem symDecos_norep {r : Bool} {mk : DKind} {ml S E : Nat} {d : Deco}
    (hd : d ∈ symDecos r mk ml S E) (hmk : isReplaceK mk = false) :
    isReplaceK d.kind = false := by
  unfold symDecos at hd
  split at hd <;> simp at hd <;> rcases hd with rfl | rfl | rfl <;>
    first | rfl | exact hmk

theorem headingDecos_norep (t : List Char) (lf : Nat) (onC : Bool) (cur : Nat) :
    ∀ d ∈ headingDecos t lf onC cur, isReplaceK d.kind = false := by
  intro d hd
  unfold headingDecos at hd
  split at hd
  · cases hd
  · rcases List.mem_cons.mp hd with rfl | hd
    · rfl
    · split at hd <;> simp at hd <;> subst hd <;> rfl

theorem quoteDecos_norep (t : List Char) (lf : Nat) (onC : Bool) (cur : Nat) :
    ∀ d ∈ quoteDecos t lf onC cur, isReplaceK d.kind = false := by
  intro d hd
  unfold quoteDecos at hd
  split at hd
  · cases hd
  · rcases List.mem_cons.mp hd with rfl | hd
    · rfl
    · split at hd <;> simp at hd <;> subst hd <;> rfl

theorem tabDecos_norep (t : List Char) (lf : Nat) (onC : Bool) (cur : Nat) :
    ∀ d ∈ tabDecos t lf onC cur, isReplaceK d.kind = false := by
  intro d hd
  unfold tabDecos at hd
  split at hd
  · cases hd
  · split at hd
    · cases hd
    · simp at hd
      rcases hd with rfl | rfl <;> rfl

theorem boldDecos_norep (t : List Char) (lf : Nat) (onC : Bool) (cur : Nat) :
    ∀ d ∈ boldDecos t lf onC cur, isReplaceK d.kind = false := by
  intro d hd
  unfold boldDecos at hd
  rw [mem_flatM] at hd
  obtain ⟨m, _, hd⟩ := hd
  exact symDecos_norep hd rfl

theorem italicDecos_norep (t : List Char) (lf : Nat) (onC : Bool) (cur : Nat) :
    ∀ d ∈ italicDecos t lf onC cur, isReplaceK d.kind = false := by
  intro d hd
  unfold italicDecos at hd
  rw [mem_flatM] at hd
  obtain ⟨m, _, hd⟩ := hd
  exact symDecos_norep hd rfl

theorem strikeDecos_norep (t : List Char) (lf : Nat) (onC : Bool) (cur : Nat) :
    ∀ d ∈ strikeDecos t lf onC cur, isReplaceK d.kind = false := by
  intro d hd
  unfold strikeDecos at hd
  rw [mem_flatM] at hd
  obtain ⟨m, _, hd⟩ := hd
  exact symDecos_norep hd rfl

theorem codeDecos_norep (t : List Char) (lf : Nat) (onC : Bool) (cur : Nat) :
    ∀ d ∈ codeDecos t lf onC cur, isReplaceK d.kind = false := by
  intro d hd
  unfold codeDecos at hd
  rw [mem_flatM] at hd
  obtain ⟨m, _, hd⟩ := hd
  exact symDecos_norep hd rfl

theorem wikiDecos_norep (t : List Char) (lf : Nat) (onC : Bool) (cur : Nat) :
    ∀ d ∈ wikiDecos t lf onC cur, isReplaceK d.kind = false := by
  intro d hd
  unfold wikiDecos at hd
  rw [mem_flatM] at hd
  obtain ⟨m, _, hd⟩ := hd
  exact symDecos_norep hd rfl

theorem extDecosOne_norep (lf : Nat) (onC : Bool) (cur : Nat)
    (m : Nat × Nat × ExtM) : ∀ d ∈ extDecosOne lf onC cur m,
      isReplaceK d.kind = false := by
  intro d hd
  rcases m with ⟨s, e, em⟩
  cases em with
  | md len url =>
    simp only [extDecosOne] at hd
    split at hd
    · simp at hd
      rcases hd with rfl | rfl | rfl <;> rfl
    · simp at hd
      rcases hd with rfl | rfl | rfl | rfl <;> rfl
  | bare url =>
    simp only [extDecosOne] at hd
    simp at hd
    subst hd
    rfl

theorem extDecos_norep (t : List Char) (lf : Nat) (onC : Bool) (cur : Nat) :
    ∀ d ∈ extDecos t lf onC cur, isReplaceK d.kind = false := by
  intro d hd
  unfold extDecos at hd
  rw [mem_flatM] at hd
  obtain ⟨m, _, hd⟩ := hd
  exact extDecosOne_norep lf onC cur m d hd

theorem mentionDecos_norep (t : List Char) (lf : Nat) :
    ∀ d ∈ mentionDecos t lf, isReplaceK d.kind = false := by
  intro d hd
  unfold mentionDecos at hd
  rw [mem_flatM] at hd
  obtain ⟨m, _, hd⟩ := hd
  simp at hd
  subst hd
  rfl

theorem hashtagDecos_norep (t : List Char) (lf : Nat) :
    ∀ d ∈ hashtagDecos t lf, isReplaceK d.kind = false := by
  intro d hd
  unfold hashtagDecos at hd
  rw [mem_flatM] at hd
  obtain ⟨m, _, hd⟩ := hd
  simp at hd
  subst hd
  rfl

theorem taskLinePart_norep (tm : TaskM) (lf : Nat) (sr : Bool) :
    ∀ d ∈ taskLinePart tm lf sr, isReplaceK d.kind = false := by
  intro d hd
  unfold taskLinePart at hd
  split at hd
  · rcases List.mem_append.mp hd with hd | hd
    · split at hd
      · simp at hd
        rcases hd with rfl | rfl <;> rfl
      · cases hd
    · simp at hd
      subst hd
      rfl
  · split at hd
    · simp at hd
      subst hd
      rfl
    · cases hd

theorem taskStatePart_norep (cls : Option TaskState × Bool) (lf lt pE : Nat) :
    ∀ d ∈ taskStatePart cls lf lt pE, isReplaceK d.kind = false := by
  intro d hd
  unfold taskStatePart at hd
  split at hd
  · simp at hd
    subst hd
    rfl
  · rcases List.mem_cons.mp hd with rfl | hd
    · rfl
    · split at hd
      · simp at hd
        subst hd
        rfl
      · cases hd
  · simp at hd
    subst hd
    rfl
  · cases hd

theorem taskReplacePart_shape (cls : Option TaskState × Bool) (sr : Bool)
    (pS pE : Nat) : ∀ d ∈ taskReplacePart cls sr pS pE,
      d.dfrom = pS ∧ d.dto = pE := by
  intro d hd
  unfold taskReplacePart at hd
  split at hd
  · split at hd
    · simp at hd
      subst hd
      exact ⟨rfl, rfl⟩
    · split at hd
      · simp at hd
        subst hd
        exact ⟨rfl, rfl⟩
      · cases hd
  · cases hd

theorem taskReplacePart_len (cls : Option TaskState × Bool) (sr : Bool)
    (pS pE : Nat) : (taskReplacePart cls sr pS pE).length ≤ 1 := by
  unfold taskReplacePart
  split
  · split
    · simp
    · split <;> simp
  · simp

theorem taskAltA_len {r : List Char} {m : Char} (h : taskAltA r = some m) :
    6 ≤ r.length := by
  unfold taskAltA at h
  split at h
  case isTrue hcond =>
    simp only [Bool.and_eq_true] at hcond
    exact chIs_lt hcond.2
  case isFalse => cases h

theorem taskAltB_len {r : List Char} (h : taskAltB r = true) : 2 ≤ r.length := by
  unfold taskAltB at h
  simp only [Bool.and_eq_true] at h
  exact chIs_lt h.2

theorem taskAltC_len {r : List Char} {c : Char} (h : taskAltC r = some c) :
    2 ≤ r.length := by
  unfold taskAltC at h
  split at h
  case _ c0 heq =>
    split at h
    case isTrue hcond =>
      simp only [Bool.and_eq_true] at hcond
      exact chIs_lt hcond.2
    case isFalse => cases h
  case _ => cases h

theorem taskAt_bound {t : List Char} {tm : TaskM} (h : taskAt t = some tm) :
    tm.indent.length + tm.prefixLen ≤ t.length := by
  unfold taskAt at h
  have hind : (t.takeWhile jsSpace).length ≤ t.length :=
    (List.takeWhile_sublist _).length_le
  have hdrop : (t.drop (t.takeWhile jsSpace).length).length
      = t.length - (t.takeWhile jsSpace).length := List.length_drop ..
  split at h
  case _ m heq =>
    have h6 := taskAltA_len heq
    injection h with h'
    subst h'
    simp only []
    omega
  case _ heq =>
    split at h
    case isTrue hb =>
      have h2 := taskAltB_len hb
      injection h with h'
      subst h'
      simp only []
      omega
    case isFalse =>
      split at h
      case _ c heqc =>
        have h2 := taskAltC_len heqc
        injection h with h'
        subst h'
        simp only []
        omega
      case _ => cases h

theorem taskDecos_pairwise (t : List Char) (lf lt : Nat) (onC : Bool) (cur : Nat) :
    (taskDecos t lf lt onC cur).Pairwise (fun a b =>
      ¬(isReplaceK a.kind = true ∧ isReplaceK b.kind = true)) := by
  unfold taskDecos
  split
  · exact List.Pairwise.nil
  case _ tm _ =>
    rw [List.append_assoc]
    apply norep_append_pairwise (taskLinePart_norep tm lf _)
    rw [List.pairwise_append]
    refine ⟨pairwise_of_len_le_one (taskReplacePart_len _ _ _ _),
      pairwise_of_norep (taskStatePart_norep _ _ _ _), ?_⟩
    intro a _ b hb hab
    rw [taskStatePart_norep _ _ _ _ b hb] at hab
    exact absurd hab.2 (by simp)

theorem taskDecos_rep_bound (t : List Char) (lf lt : Nat) (onC : Bool) (cur : Nat) :
    ∀ d ∈ taskDecos t lf lt onC cur, isReplaceK d.kind = true →
      lf ≤ d.dfrom ∧ d.dto ≤ lf + t.length := by
  unfold taskDecos
  split
  · intro d hd
    cases hd
  case _ tm htask =>
    intro d hd hrep
    rw [List.append_assoc] at hd
    rcases List.mem_append.mp hd with hd | hd
    · rw [taskLinePart_norep _ _ _ d hd] at hrep
      cases hrep
    rcases List.mem_append.mp hd with hd | hd
    · obtain ⟨h1, h2⟩ := taskReplacePart_shape _ _ _ _ d hd
      have hb := taskAt_bound htask
      omega
    · rw [taskStatePart_norep _ _ _ _ d hd] at hrep
      cases hrep

theorem lineDecos_pairwise (t : List Char) (lf lt : Nat) (onC : Bool) (cur : Nat) :
    (lineDecos t lf lt onC cur).Pairwise (fun a b =>
      ¬(isReplaceK a.kind = true ∧ isReplaceK b.kind = true)) := by
  unfold lineDecos
  simp only [List.append_assoc]
  apply norep_append_pairwise (headingDecos_norep t lf onC cur)
  apply norep_append_pairwise (quoteDecos_norep t lf onC cur)
  apply norep_append_pairwise (fun d hd => by
    split at hd
    · exact tabDecos_norep t lf onC cur d hd
    · cases hd)
  apply norep_append_pairwise (boldDecos_norep t lf onC cur)
  apply norep_append_pairwise (italicDecos_norep t lf onC cur)
  apply norep_append_pairwise (strikeDecos_norep t lf onC cur)
  apply norep_append_pairwise (codeDecos_norep t lf onC cur)
  apply norep_append_pairwise (wikiDecos_norep t lf onC cur)
  apply norep_append_pairwise (extDecos_norep t lf onC cur)
  rw [List.pairwise_append]
  refine ⟨taskDecos_pairwise t lf lt onC cur, ?_, ?_⟩
  · refine pairwise_of_norep ?_
    intro d hd
    rcases List.mem_append.mp hd with hd | hd
    · exact mentionDecos_norep t lf d hd
    · exact hashtagDecos_norep t lf d hd
  · intro a _ b hb hab
    have : isReplaceK b.kind = false := by
      rcases List.mem_append.mp hb with hb | hb
      · exact mentionDecos_norep t lf b hb
      · exact hashtagDecos_norep t lf b hb
    rw [this] at hab
    exact absurd hab.2 (by simp)

theorem lineDecos_rep_bound (t : List Char) (lf lt : Nat) (onC : Bool) (cur : Nat) :
    ∀ d ∈ lineDecos t lf lt onC cur, isReplaceK d.kind = true →
      lf ≤ d.dfrom ∧ d.dto ≤ lf + t.length := by
  intro d hd hrep
  unfold lineDecos at hd
  simp only [List.append_assoc] at hd
  rcases List.mem_append.mp hd with hd | hd
  · rw [headingDecos_norep t lf onC cur d hd] at hrep; cases hrep
  rcases List.mem_append.mp hd with hd | hd
  · rw [quoteDecos_norep t lf onC cur d hd] at hrep; cases hrep
  rcases List.mem_append.mp hd with hd | hd
  · have : isReplaceK d.kind = false := by
      split at hd
      · exact tabDecos_norep t lf onC cur d hd
      · cases hd
    rw [this] at hrep; cases hrep
  rcases List.mem_append.mp hd with hd | hd
  · rw [boldDecos_norep t lf onC cur d hd] at hrep; cases hrep
  rcases List.mem_append.mp hd with hd | hd
  · rw [italicDecos_norep t lf onC cur d hd] at hrep; cases hrep
  rcases List.mem_append.mp hd with hd | hd
  · rw [strikeDecos_norep t lf onC cur d hd] at hrep; cases hrep
  rcases List.mem_append.mp hd with hd | hd
  · rw [codeDecos_norep t lf onC cur d hd] at hrep; cases hrep
  rcases List.mem_append.mp hd with hd | hd
  · rw [wikiDecos_norep t lf onC cur d hd] at hrep; cases hrep
  rcases List.mem_append.mp hd with hd | hd
  · rw [extDecos_norep t lf onC cur d hd] at hrep; cases hrep
  rcases List.mem_append.mp hd with hd | hd
  · exact taskDecos_rep_bound t lf lt onC cur d hd hrep
  rcases List.mem_append.mp hd with hd | hd
  · rw [mentionDecos_norep t lf d hd] at hrep; cases hrep
  · rw [hashtagDecos_norep t lf d hd] at hrep; cases hrep

theorem single_line_facts (cursor pos : Nat) (l : List Char) :
    (flatM (fun pl : Nat × List Char =>
        lineDecos pl.2 pl.1 (pl.1 + pl.2.length)
          (cursorIn cursor pl.1 (pl.1 + pl.2.length)) cursor)
      [(pos, l)]).Pairwise (fun a b =>
        ¬(isReplaceK a.kind = true ∧ isReplaceK b.kind = true
          ∧ a.dfrom < b.dto ∧ b.dfrom < a.dto))
    ∧ ∀ d ∈ flatM (fun pl : Nat × List Char =>
        lineDecos pl.2 pl.1 (pl.1 + pl.2.length)
          (cursorIn cursor pl.1 (pl.1 + pl.2.length)) cursor)
      [(pos, l)], isReplaceK d.kind = true →
        pos ≤ d.dfrom ∧ d.dto ≤ pos + l.length := by
  constructor
  · show (lineDecos l pos (pos + l.length) _ cursor ++ flatM _ []).Pairwise _
    rw [show flatM (fun pl : Nat × List Char =>
        lineDecos pl.2 pl.1 (pl.1 + pl.2.length)
          (cursorIn cursor pl.1 (pl.1 + pl.2.length)) cursor) [] = [] from rfl,
      List.append_nil]
    refine List.Pairwise.imp ?_
      (lineDecos_pairwise l pos (pos + l.length) _ cursor)
    intro a b h hc
    exact h ⟨hc.1, hc.2.1⟩
  · intro d hd hrep
    rw [mem_flatM] at hd
    obtain ⟨pl, hpl, hd⟩ := hd
    rw [List.mem_singleton] at hpl
    subst hpl
    exact lineDecos_rep_bound l pos _ _ _ d hd hrep

theorem linesAux_decos_facts (cursor : Nat) :
    ∀ (fuel pos : Nat) (t : List Char),
    (flatM (fun pl : Nat × List Char =>
        lineDecos pl.2 pl.1 (pl.1 + pl.2.length)
          (cursorIn cursor pl.1 (pl.1 + pl.2.length)) cursor)
      (linesAux fuel pos t)).Pairwise (fun a b =>
        ¬(isReplaceK a.kind = true ∧ isReplaceK b.kind = true
          ∧ a.dfrom < b.dto ∧ b.dfrom < a.dto))
    ∧ ∀ d ∈ flatM (fun pl : Nat × List Char =>
        lineDecos pl.2 pl.1 (pl.1 + pl.2.length)
          (cursorIn cursor pl.1 (pl.1 + pl.2.length)) cursor)
      (linesAux fuel pos t), isReplaceK d.kind = true → pos ≤ d.dfrom := by
  intro fuel
  induction fuel with
  | zero =>
    intro pos t
    refine ⟨(single_line_facts cursor pos t).1, ?_⟩
    intro d hd hrep
    exact ((single_line_facts cursor pos t).2 d hd hrep).1
  | succ fuel ih =>
    intro pos t
    rw [linesAux]
    cases hsp : splitFirst t with
    | mk l rest =>
      cases rest with
      | none =>
        refine ⟨(single_line_facts cursor pos l).1, ?_⟩
        intro d hd hrep
        exact ((single_line_facts cursor pos l).2 d hd hrep).1
      | some r =>
        show ((lineDecos l pos (pos + l.length) _ cursor
            ++ flatM _ (linesAux fuel (pos + l.length + 1) r)).Pairwise _) ∧ _
        constructor
        · rw [List.pairwise_append]
          refine ⟨?_, (ih (pos + l.length + 1) r).1, ?_⟩
          · refine List.Pairwise.imp ?_
              (lineDecos_pairwise l pos (pos + l.length) _ cursor)
            intro a b h hc
            exact h ⟨hc.1, hc.2.1⟩
          · intro a ha b hb hc
            obtain ⟨hra, hrb, hov1, hov2⟩ := hc
            have hba := (lineDecos_rep_bound l pos _ _ _ a ha hra).2
            have hbb := (ih (pos + l.length + 1) r).2 b hb hrb
            omega
        · intro d hd hrep
          rcases List.mem_append.mp hd with hd | hd
          · exact (lineDecos_rep_bound l pos _ _ _ d hd hrep).1
          · have := (ih (pos + l.length + 1) r).2 d hd hrep
            omega

/-- **C2, amended.** For every document text and cursor offset, no two
`Replace` (glyph-widget) annotations in the builder's output overlap in
range; `Hide` and `Mark` annotations from different syntax rules may
overlap each other and Replace annotations (see the counterexample). -/
theorem buildDecos_replace_non_overlap (doc : List Char) (cursor : Nat) :
    (buildDecos doc cursor).Pairwise (fun a b =>
      ¬(isReplaceK a.kind = true ∧ isReplaceK b.kind = true
        ∧ a.dfrom < b.dto ∧ b.dfrom < a.dto)) := by
  unfold buildDecos
  have hsym : ∀ {x y : Deco},
      (fun a b : Deco =>
        ¬(isReplaceK a.kind = true ∧ isReplaceK b.kind = true
          ∧ a.dfrom < b.dto ∧ b.dfrom < a.dto)) x y →
      (fun a b : Deco =>
        ¬(isReplaceK a.kind = true ∧ isReplaceK b.kind = true
          ∧ a.dfrom < b.dto ∧ b.dfrom < a.dto)) y x := by
    intro x y h hc
    exact h ⟨hc.2.1, hc.1, hc.2.2.2, hc.2.2.1⟩
  rw [List.Perm.pairwise_iff hsym (List.perm_insertionSort decoLe _)]
  unfold docLines
  exact (linesAux_decos_facts cursor doc.length 0 doc).1

/-- Witness for C10: updating an unindexed path on the empty index is a
no-op, while adding it registers it. -/
theorem updateEntry_missing_noop_witness :
    updateEntry (rebuildMaps []) "Notes/New.txt" "hello" = rebuildMaps []
    ∧ "Notes/New.txt" ∈
        (addEntry (rebuildMaps []) "Notes/New.txt" "New.txt" "hello").entries.map
          (·.relPath) :=
  ⟨(updateEntry_missing_noop (rebuildMaps []) "Notes/New.txt" "hello" (by decide)).1,
   (updateEntry_missing_noop (rebuildMaps []) "Notes/New.txt" "hello" (by decide)).2
     "New.txt"⟩

end Daymark
